import Mathlib

/-!
Verification of the tactical grid-game engine
(environment, A*, Minimax, Alpha-Beta, MCTS helpers).

The definitions below are a shallow embedding of the Python sources:
  * `src/environment/environment.py`  (class TacticalEnvironment)
  * `src/algorithm/astar/astar.py`    (class AStar)
  * `src/algorithm/minimax/minimax.py` and `minimaxnode.py`
  * `src/algorithm/alphabeta/alphabeta.py` and `alphabetanode.py`
  * `src/algorithm/mcts/mcts.py`      (reward and best-child selection)

Machine integers are embedded as `Int`/`Nat`, Python floats (whose values in
this code are always exact decimal fractions) as `Rat`, Python sets of
coordinate pairs as `Finset (Int × Int)`, and `random.choice`/`random.random`
draws as explicitly threaded oracle parameters.
-/

/-- A board coordinate, Python tuple `(x, y)`. -/
abbrev Pos : Type := Int × Int

/-- Manhattan distance `abs(a[0]-b[0]) + abs(a[1]-b[1])` used throughout the code. -/
def manhattan (a b : Pos) : Nat :=
  (a.1 - b.1).natAbs + (a.2 - b.2).natAbs

/-- Whose turn it is, Python string field `turn` ("player" / "enemy"). -/
inductive Turn : Type
  | player : Turn
  | enemy : Turn
deriving DecidableEq, Repr

/-- Terminal reason, Python strings "goal" / "trap" / "caught". -/
inductive Reason : Type
  | goal : Reason
  | trap : Reason
  | caught : Reason
deriving DecidableEq, Repr

/-- Game-state fields of `TacticalEnvironment` (environment.py).
Rendering-only fields (fonts, HUD, draw positions, textures, caches)
are omitted; they never influence the game logic. -/
structure Env : Type where
  width : Nat
  height : Nat
  playerPos : Pos
  enemyPos : Pos
  goal : Pos
  walls : Finset Pos
  traps : Finset Pos
  turn : Turn
  turnCounter : Nat
deriving DecidableEq

namespace Env

/-- `TacticalEnvironment.in_bounds` (environment.py line 145). -/
def in_bounds (e : Env) (p : Pos) : Bool :=
  0 ≤ p.1 && p.1 < (e.width : Int) && 0 ≤ p.2 && p.2 < (e.height : Int)

/-- `TacticalEnvironment.is_blocked` (environment.py line 158): wall test. -/
def is_blocked (e : Env) (p : Pos) : Bool :=
  p ∈ e.walls

/-- A tile the BFS of `get_move_range` may enter: in bounds and not a wall. -/
def passable (e : Env) (p : Pos) : Bool :=
  e.in_bounds p && !e.is_blocked p

/-- The four 4-directional neighbours `[(1,0),(-1,0),(0,1),(0,-1)]` of a tile. -/
def neighbors4 (p : Pos) : List Pos :=
  [(p.1 + 1, p.2), (p.1 - 1, p.2), (p.1, p.2 + 1), (p.1, p.2 - 1)]

/-- One BFS expansion step: all passable neighbours of a set of tiles. -/
def expandFrom (e : Env) (s : Finset Pos) : Finset Pos :=
  s.biUnion (fun q => ((neighbors4 q).filter (fun n => e.passable n)).toFinset)

/-- Tiles visited by the BFS of `get_move_range` after at most `n` edge
traversals from `src`: the breadth-first layers accumulated up to depth `n`. -/
def reachN (e : Env) (src : Pos) : Nat → Finset Pos
  | 0 => {src}
  | n + 1 => reachN e src n ∪ e.expandFrom (reachN e src n)

/-- `TacticalEnvironment.get_move_range` (environment.py lines 171-202):
breadth-first search from `pos` up to `range` edges, never entering a wall
or leaving the grid, with the origin removed from the result.  The queue BFS
of the source computes exactly the set of tiles whose BFS distance from
`pos` is at most `move_range`; `reachN` is that set, layer by layer. -/
def get_move_range (e : Env) (pos : Pos) (range : Nat) : Finset Pos :=
  (reachN e pos range).erase pos

/-- `TacticalEnvironment.move_unit` (environment.py line 204): move to
`target` if it is in bounds and unblocked, else stay at `pos`. -/
def move_unit (e : Env) (pos target : Pos) : Pos :=
  if !e.in_bounds target || e.is_blocked target then pos else target

/-- `TacticalEnvironment.is_terminal` (environment.py lines 220-233):
goal first, then trap, then caught. -/
def is_terminal (e : Env) : Bool × Option Reason :=
  if e.playerPos = e.goal then (true, some Reason.goal)
  else if e.playerPos ∈ e.traps then (true, some Reason.trap)
  else if e.enemyPos = e.playerPos then (true, some Reason.caught)
  else (false, none)

/-- The list comprehension of `spawn_trap` (environment.py lines 236-245):
all tiles not occupied by the player, the enemy, the goal, a wall or an
existing trap, enumerated in the source's `for x ... for y ...` order. -/
def emptyTiles (e : Env) : List Pos :=
  (List.range e.width).flatMap (fun x =>
    (List.range e.height).filterMap (fun y =>
      let p : Pos := ((x : Int), (y : Int))
      if p ≠ e.playerPos ∧ p ≠ e.enemyPos ∧ p ≠ e.goal ∧
          p ∉ e.walls ∧ p ∉ e.traps then some p else none))

/-- `TacticalEnvironment.spawn_trap` (environment.py lines 235-251).
`random.choice(empty_tiles)` is embedded as indexing by an oracle draw
`r` reduced modulo the list length; every possible choice of the Python
RNG corresponds to some `r`. -/
def spawn_trap (e : Env) (r : Nat) : Env :=
  if e.emptyTiles.isEmpty then e
  else { e with
    traps := insert (e.emptyTiles.getD (r % e.emptyTiles.length) ((0 : Int), (0 : Int)))
      e.traps }

/-- The player move of `step` (environment.py lines 269-274): apply the
action as the player's destination when it lies in the player's move
range. -/
def playerApply (e : Env) (a : Pos) : Env :=
  if a ∈ e.get_move_range e.playerPos 3 then
    { e with playerPos := e.move_unit e.playerPos a } else e

/-- The enemy move of `step` (environment.py lines 292-295): note that the
legality check is `get_move_range(self.enemy_pos)` with the DEFAULT range 3,
not the range 2 of `get_valid_actions("enemy")`. -/
def enemyApply (e : Env) (action : Option Pos) : Env :=
  match action with
  | some a =>
      if a ∈ e.get_move_range e.enemyPos 3 then
        { e with enemyPos := e.move_unit e.enemyPos a } else e
  | none => e

/-- The tail of the player branch of `step` (environment.py lines 276-288):
terminal check on the post-move state `e1`, then hand the turn to the
enemy. -/
def playerPhase2 (e1 : Env) (simulate : Bool) (resetFn : Env → Env) :
    Env × Option (Bool × Option Reason) :=
  if (e1.is_terminal).1 then
    (if simulate then (e1, some (true, (e1.is_terminal).2)) else (resetFn e1, none))
  else
    if simulate then ({ e1 with turn := Turn.enemy }, some (false, none))
    else ({ e1 with turn := Turn.enemy }, none)

/-- The turn hand-over at the end of an enemy turn (environment.py lines
306-312): give the turn back to the player, increment `turn_counter`, and
spawn a trap when the counter hits the cadence. -/
def enemyAdvance (e1 : Env) (r : Nat) : Env :=
  if (e1.turnCounter + 1) % 3 = 0 then
    ({ e1 with turn := Turn.player, turnCounter := e1.turnCounter + 1 }).spawn_trap r
  else { e1 with turn := Turn.player, turnCounter := e1.turnCounter + 1 }

/-- The tail of the enemy branch of `step` (environment.py lines 297-315):
terminal check on the post-move state `e1`, then `enemyAdvance`. -/
def enemyPhase2 (e1 : Env) (simulate : Bool) (r : Nat) (resetFn : Env → Env) :
    Env × Option (Bool × Option Reason) :=
  if (e1.is_terminal).1 then
    (if simulate then (e1, some (true, (e1.is_terminal).2)) else (resetFn e1, none))
  else
    if simulate then (enemyAdvance e1 r, some (false, none))
    else (enemyAdvance e1 r, none)

/-- `TacticalEnvironment.step` (environment.py lines 253-315), assembled
from the helpers above (which inline the source's local variables
`move_tiles` / `is_terminal, reason` / the post-move state).
`action = none` is Python `action=None`; `r` is the oracle draw consumed by
`spawn_trap` if it fires.  `resetFn` stands for the in-place episode reset
performed when `simulate=False` and the state is terminal (it regenerates
the layout through the external generator and is never invoked by the
search engines, which always pass `simulate=True`).  The returned option is
the Python return value: `some (b, reason)` for `return (b, reason)`,
`none` for the bare `return` of the reset branches. -/
def step (e : Env) (action : Option Pos) (simulate : Bool) (r : Nat)
    (resetFn : Env → Env) : Env × Option (Bool × Option Reason) :=
  match e.turn, action with
  | Turn.player, some a => playerPhase2 (e.playerApply a) simulate resetFn
  | Turn.player, none =>
      -- `if self.turn == "player" and action is not None` fails: nothing at all
      -- happens before the final `if simulate: return (False, None)`.
      if simulate then (e, some (false, none)) else (e, none)
  | Turn.enemy, _ => enemyPhase2 (e.enemyApply action) simulate r resetFn

/-- `step` as the search engines call it: `simulate=True`, where the reset
branch is unreachable. -/
def stepSim (e : Env) (action : Option Pos) (r : Nat) : Env × Option (Bool × Option Reason) :=
  e.step action true r id

/-- `TacticalEnvironment.get_valid_actions` (environment.py lines 317-335):
move range 3 for the player, 2 for the enemy, resolving `unit="current"`
through `turn`. -/
def get_valid_actions (e : Env) : Finset Pos :=
  match e.turn with
  | Turn.player => e.get_move_range e.playerPos 3
  | Turn.enemy => e.get_move_range e.enemyPos 2

end Env

/-- The turn opposite to `t`; `step` hands control to this side when a
turn completes. -/
def otherTurn : Turn → Turn
  | Turn.player => Turn.enemy
  | Turn.enemy => Turn.player

/-- Spec-side notion for the move-range claim: `reachableIn e src n q` holds
iff there is a 4-directional chain of length at most `n` from `src` to `q`
whose every tile after `src` is in bounds and not a wall — that is, the
4-directional graph distance from `src` to `q` through in-bounds non-wall
tiles is at most `n`. -/
def reachableIn (e : Env) (src : Pos) : Nat → Pos → Prop
  | 0, q => q = src
  | n + 1, q => reachableIn e src n q ∨
      ∃ p, reachableIn e src n p ∧ q ∈ Env.neighbors4 p ∧ e.passable q = true

/-! ### Object-level model for clone independence

`TacticalEnvironment.clone` (environment.py lines 529-559) builds a fresh
Python object and installs `copy.deepcopy` copies of the mutable containers.
Positions and the turn fields are plain attributes rebound on assignment, so
after `clone` allocates a fresh object they are automatically unshared; the
one container that the game logic mutates in place is the `traps` set
(`self.traps.add(...)` in `spawn_trap`).  The model therefore keeps `traps`
behind an explicit heap reference and everything else as object fields: a
shallow copy would share the reference, `clone`'s deepcopy allocates a fresh
cell holding an equal set. -/

/-- A heap of Python `set` objects used for `traps`. -/
abbrev TrapHeap : Type := List (Finset Pos)

/-- The `TacticalEnvironment` object: game-state fields plus a reference to
its `traps` set on the heap. -/
structure EnvObj : Type where
  width : Nat
  height : Nat
  playerPos : Pos
  enemyPos : Pos
  goal : Pos
  walls : Finset Pos
  trapsRef : Nat
  turn : Turn
  turnCounter : Nat
deriving DecidableEq

/-- Read the object's `traps` set from the heap. -/
def derefTraps (h : TrapHeap) (o : EnvObj) : Finset Pos :=
  h.getD o.trapsRef ∅

/-- The observable game state of an object: all seven game-state fields
(`player_pos`, `enemy_pos`, `goal`, `walls`, `traps`, `turn`,
`turn_counter`) together with the grid dimensions. -/
def toEnv (h : TrapHeap) (o : EnvObj) : Env :=
  { width := o.width, height := o.height, playerPos := o.playerPos,
    enemyPos := o.enemyPos, goal := o.goal, walls := o.walls,
    traps := derefTraps h o, turn := o.turn, turnCounter := o.turnCounter }

/-- `TacticalEnvironment.clone` (environment.py lines 529-559): a fresh
object whose fields are copied from the original and whose `traps` set is a
`copy.deepcopy`, i.e. a newly allocated heap cell holding an equal set. -/
def cloneObj (h : TrapHeap) (o : EnvObj) : TrapHeap × EnvObj :=
  (h ++ [derefTraps h o], { o with trapsRef := h.length })

/-- `step` acting on a heap-allocated object: run the pure `step` on the
observable state, rebind the position / turn attributes on the object and
write the (possibly trap-augmented) `traps` set back through the object's
own reference — `spawn_trap` mutates the referenced set in place. -/
def stepObj (h : TrapHeap) (o : EnvObj) (a : Option Pos) (r : Nat) :
    TrapHeap × EnvObj × Option (Bool × Option Reason) :=
  let res := (toEnv h o).stepSim a r
  (h.set o.trapsRef res.1.traps,
   { o with playerPos := res.1.playerPos, enemyPos := res.1.enemyPos,
            turn := res.1.turn, turnCounter := res.1.turnCounter },
   res.2)

/-- Direct in-place mutation `obj.traps.add(t)` (as in the repository's own
clone test `test_environment_clone.py`). -/
def addTrapObj (h : TrapHeap) (o : EnvObj) (t : Pos) : TrapHeap :=
  h.set o.trapsRef (insert t (derefTraps h o))

/-! ### MCTS reward and best-child selection (mcts.py) -/

/-- `MCTS.rollout_reward` (mcts.py lines 387-446).  Python floats are exact
here: every value produced is a finite decimal. -/
def rolloutReward (e : Env) (reason : Option Reason) : Rat :=
  if reason = some Reason.goal then 1
  else if reason = some Reason.trap ∨ reason = some Reason.caught then -1
  else
    let distGoal : Rat := (manhattan e.playerPos e.goal : Rat)
    let maxDist : Rat := ((e.width : Rat) + (e.height : Rat))
    let closeness := max 0 (min 1 (1 - distGoal / maxDist))
    let baseScore := 1/4 + (7/10) * closeness
    let distEnemy := manhattan e.playerPos e.enemyPos
    let penaltyFactor : Rat :=
      if distEnemy ≤ 1 then 1/2
      else if distEnemy = 2 then 7/10
      else if distEnemy = 3 then 17/20
      else 1
    max 0 (min (99/100) (baseScore * penaltyFactor))

/-- The per-child statistics of an `MCTSNode` root child that the move
selection of `MCTS.search` reads: `visits`, `wins` and `action`. -/
structure ChildStat : Type where
  visits : Nat
  wins : Rat
  action : Pos
deriving DecidableEq

/-- The selection key of `MCTS.search` line 110:
`c.wins / (c.visits + 1) if c.visits > 0 else 0`. -/
def winScore (c : ChildStat) : Rat :=
  if 0 < c.visits then c.wins / ((c.visits : Rat) + 1) else 0

/-- Python `max(xs, key=k)`: the first element realising the maximal key
(later elements replace the current best only on a strictly larger key). -/
def pyMaxBy {α : Type} (key : α → Rat) : List α → Option α
  | [] => none
  | x :: xs => some (xs.foldl (fun b y => if key b < key y then y else b) x)

/-- The candidate filter of `MCTS.search` (mcts.py lines 97-105): children
with at least `max(1, root.visits // len(children) // 2)` visits, falling
back to all children when none qualifies. -/
def mctsCandidates (rootVisits : Nat) (children : List ChildStat) : List ChildStat :=
  if (children.filter (fun c => Nat.max 1 (rootVisits / children.length / 2) ≤ c.visits)).isEmpty
  then children
  else children.filter (fun c => Nat.max 1 (rootVisits / children.length / 2) ≤ c.visits)

/-- Move selection of `MCTS.search` (mcts.py lines 92-112), before the
safety override: the candidate filter above, then Python `max` by the
win-rate key.  The `children = []` case (where the source falls back to a
uniformly random legal action) is returned as `none`. -/
def bestChildAction (rootVisits : Nat) (children : List ChildStat) : Option Pos :=
  match children with
  | [] => none
  | _ :: _ =>
    (pyMaxBy winScore (mctsCandidates rootVisits children)).map (fun c => c.action)

/-! ### Concrete environments used to instantiate the theorems -/

/-- A small 3×3 board: player bottom-left, enemy top-right, goal at (2,0),
one wall, one trap, player to move. -/
def envA : Env :=
  { width := 3, height := 3, playerPos := (0, 0), enemyPos := (2, 2),
    goal := (2, 0), walls := {(1, 0)}, traps := {(1, 2)},
    turn := Turn.player, turnCounter := 0 }

/-- The same board with the player standing on the goal (a terminal state). -/
def envAGoal : Env :=
  { envA with playerPos := (2, 0) }

/-- The same board on the enemy's turn with the enemy collocated with the
player (a terminal "caught" state). -/
def envACaught : Env :=
  { envA with enemyPos := (0, 0), turn := Turn.enemy }

/-- A wall-free 4×4 board on the enemy's turn, two completed seeker turns
already on the clock. -/
def envB : Env :=
  { width := 4, height := 4, playerPos := (0, 0), enemyPos := (3, 3),
    goal := (3, 0), walls := ∅, traps := ∅,
    turn := Turn.enemy, turnCounter := 2 }

/-! ### The two adversarial engines: Minimax and Alpha-Beta

Both engines walk the same game tree: children of a state are
`list(state.get_valid_actions(unit="current"))` applied through
`clone()` + `step(action, simulate=True)`.  The Python `list(set)` order
is embedded as a fixed canonical enumeration (`actionsList`), identical for
both engines — the claims assume identical tie-breaking.  The trap-spawn
RNG draws consumed inside `step` are served by a deterministic oracle
`ρ : Env → Nat`, identical for both engines, modelling identical
randomness.  Python float scores with `-inf`/`inf` sentinels are embedded
as `WithBot (WithTop Rat)` (`⊥` = `-float("inf")`, `⊤` = `float("inf")`);
every score this code computes is an exact decimal, so `Rat` is exact. -/

/-- Scores with the two Python infinities. -/
abbrev EScore : Type := WithBot (WithTop Rat)

/-- A finite score. -/
def toEScore (q : Rat) : EScore := some (some q)

/-- All grid tiles in a fixed canonical order (x-major, as Python's range
loops enumerate them). -/
def gridTiles (e : Env) : List Pos :=
  (List.range e.width).flatMap (fun x =>
    (List.range e.height).map (fun y => (((x : Int), (y : Int)) : Pos)))

/-- The engines' root/recursive action list:
`list(state.get_valid_actions(unit="current"))` with the set iterated in
the canonical grid order — both engines see the same order (identical
tie-breaking). -/
def actionsList (e : Env) : List Pos :=
  (gridTiles e).filter (fun p => p ∈ e.get_valid_actions)

/-- The child state both engines build: `state.clone()` followed by
`step(action, simulate=True)`, with the trap-spawn draw served by the
oracle `ρ` at the pre-step state. -/
def childState (ρ : Env → Nat) (e : Env) (a : Pos) : Env :=
  (e.stepSim (some a) (ρ e)).1

/-- The integer core of `AlphaBetaNode.evaluate` (alphabetanode.py lines
27-86): components 2-7 of the heuristic.  Every arithmetic step of the
source operates on exact small integers, so Python float arithmetic is
exact here.  Component 8 (the parent/grandparent oscillation penalty)
never fires in `AlphaBetaSearch`, which always constructs nodes with
`parent=None`. -/
def abScoreInt (e : Env) : Int :=
  let distGoal : Int := (manhattan e.playerPos e.goal : Int)
  let distEnemy : Int := (manhattan e.playerPos e.enemyPos : Int)
  let enemyTerm : Int := if distEnemy ≤ 2 then -1000 else if distEnemy ≤ 4 then -300 else 50
  let mobility : Int := (e.get_valid_actions.card : Int) * 5
  let trapTerm : Int := e.traps.sum (fun t =>
    if manhattan e.playerPos t = 0 then -5000
    else if manhattan e.playerPos t = 1 then -1000
    else if manhattan e.playerPos t = 2 then -200 else 0)
  let cornerTerm : Int := if e.playerPos.1 = 0 ∨ e.playerPos.1 = (e.width : Int) - 1 ∨
      e.playerPos.2 = 0 ∨ e.playerPos.2 = (e.height : Int) - 1 then -100 else 0
  let base : Int := -distGoal * 10 + enemyTerm + mobility + trapTerm + cornerTerm
  let base1 : Int := if base = 0 then 1 else base
  let distCenter : Int := (manhattan e.playerPos ((e.width / 2 : Nat), (e.height / 2 : Nat)) : Int)
  base1 - distCenter * 3

/-- `AlphaBetaNode.evaluate` (alphabetanode.py): terminal win/lose scores
±1,000,000, otherwise the integer heuristic with the final near-zero
adjustment — an integer score satisfies `-0.1 < score < 0.1` exactly when
it is 0, in which case 0.3 is added and returned. -/
def alphaBetaEvaluate (e : Env) : Rat :=
  if e.playerPos = e.goal then Rat.ofInt 1000000
  else if e.playerPos = e.enemyPos ∨ e.playerPos ∈ e.traps then Rat.ofInt (-1000000)
  else if abScoreInt e = 0 then Rat.divInt 3 10 else Rat.ofInt (abScoreInt e)

/-- The trap-proximity test of `MinimaxNode.evaluate` (minimaxnode.py lines
114-124): the trap set is non-empty and the closest trap is at Manhattan
distance at most 1. -/
def trapClose (e : Env) : Prop :=
  ∃ t ∈ e.traps, manhattan e.playerPos t ≤ 1

instance (e : Env) : Decidable (trapClose e) := by
  unfold trapClose
  infer_instance

/-- `MinimaxNode.evaluate` (minimaxnode.py lines 40-127) written with the
source's own float expressions over `Rat` (all values are exact
decimals). -/
def minimaxEvaluate (e : Env) : Rat :=
  if e.playerPos = e.goal then 1
  else if e.playerPos = e.enemyPos ∨ e.playerPos ∈ e.traps then 0
  else
    let distGoal : Rat := (manhattan e.playerPos e.goal : Rat)
    let maxDist : Rat := (e.width : Rat) + (e.height : Rat)
    let closeness : Rat := max 0 (min 1 (1 - distGoal / maxDist))
    let distEnemy : Nat := manhattan e.playerPos e.enemyPos
    let penaltyFactor : Rat :=
      if distEnemy ≤ 1 then 3/10 else if distEnemy = 2 then 6/10
      else if distEnemy = 3 then 8/10 else 1
    let mobilityBonus : Rat := ((e.get_valid_actions.card : Rat) / 8) * (1/10)
    let score := closeness * (6/10) * penaltyFactor + mobilityBonus
    let score2 := if trapClose e then score * (9/10) else score
    max 0 (min (99/100) score2)

/-- The exact-fraction form of `MinimaxNode.evaluate`, used inside the
engine so that scores are kernel-computable: numerator and denominator are
computed in integer arithmetic and assembled with `Rat.divInt`.  The
theorem `minimaxEvalExact_eq` proves it pointwise equal to the literal
transcription `minimaxEvaluate`. -/
def minimaxEvalExact (e : Env) : Rat :=
  if e.playerPos = e.goal then Rat.ofInt 1
  else if e.playerPos = e.enemyPos ∨ e.playerPos ∈ e.traps then Rat.ofInt 0
  else
    let s : Nat := e.width + e.height
    let d : Nat := manhattan e.playerPos e.goal
    let k : Nat := if s = 0 then 1 else s - d
    let cDen : Nat := if s = 0 then 1 else s
    let distEnemy : Nat := manhattan e.playerPos e.enemyPos
    let pn : Nat := if distEnemy ≤ 1 then 3 else if distEnemy = 2 then 6
      else if distEnemy = 3 then 8 else 10
    let n : Nat := e.get_valid_actions.card
    let num : Int := 24 * (k * pn) + 5 * (n * cDen)
    let q : Rat := if trapClose e
      then Rat.divInt (9 * num) (4000 * (cDen : Int))
      else Rat.divInt num (400 * (cDen : Int))
    max 0 (min (Rat.divInt 99 100) q)

/-- The loop state of the alpha-beta fold: running value, adjustable bound
(`alpha` in `_max_value`, `beta` in `_min_value`), visited-node count and
the cutoff flag (a pruned loop stops consuming actions). -/
structure ABState : Type where
  v : EScore
  bound : EScore
  cnt : Nat
  stop : Bool

/-- One iteration of the action loop of `_max_value` (alphabeta.py lines
114-127): evaluate the child with the current window through the supplied
child evaluator `f`, fold the value with `max`, cut off as soon as
`value >= beta`, and otherwise raise `alpha`. -/
def abStepMax (ρ : Env → Nat) (e : Env) (beta : EScore)
    (f : Env → EScore → EScore → EScore × Nat) (s : ABState) (a : Pos) : ABState :=
  if s.stop then s
  else
    let r := f (childState ρ e a) s.bound beta
    let v2 := max s.v r.1
    if beta ≤ v2 then ⟨v2, s.bound, s.cnt + r.2, true⟩
    else ⟨v2, max s.bound v2, s.cnt + r.2, false⟩

/-- One iteration of the action loop of `_min_value` (alphabeta.py lines
153-166): dual of `abStepMax`. -/
def abStepMin (ρ : Env → Nat) (e : Env) (alpha : EScore)
    (f : Env → EScore → EScore → EScore × Nat) (s : ABState) (a : Pos) : ABState :=
  if s.stop then s
  else
    let r := f (childState ρ e a) alpha s.bound
    let v2 := min s.v r.1
    if v2 ≤ alpha then ⟨v2, s.bound, s.cnt + r.2, true⟩
    else ⟨v2, min s.bound v2, s.cnt + r.2, false⟩

mutual

/-- `AlphaBetaSearch._max_value` (alphabeta.py lines 92-129), with
remaining depth `fuel` (source: `max_depth - depth`; the cutoff test
`depth == self.max_depth` is `fuel = 0`).  Returns the value and the
number of `_max_value`/`_min_value` calls performed (the source's
`_nodes_visited` increments). -/
def abMaxVal (ρ : Env → Nat) : Nat → Env → EScore → EScore → EScore × Nat
  | 0, e, _, _ => (toEScore (alphaBetaEvaluate e), 1)
  | fuel + 1, e, alpha, beta =>
      if (e.is_terminal).1 then (toEScore (alphaBetaEvaluate e), 1)
      else
        ((fun (res : ABState) => (res.v, res.cnt))
          ((actionsList e).foldl (abStepMax ρ e beta (abMinVal ρ fuel)) ⟨⊥, alpha, 1, false⟩))

/-- `AlphaBetaSearch._min_value` (alphabeta.py lines 131-168). -/
def abMinVal (ρ : Env → Nat) : Nat → Env → EScore → EScore → EScore × Nat
  | 0, e, _, _ => (toEScore (alphaBetaEvaluate e), 1)
  | fuel + 1, e, alpha, beta =>
      if (e.is_terminal).1 then (toEScore (alphaBetaEvaluate e), 1)
      else
        ((fun (res : ABState) => (res.v, res.cnt))
          ((actionsList e).foldl (abStepMin ρ e alpha (abMaxVal ρ fuel)) ⟨⊤, beta, 1, false⟩))

end

/-- The root loop state of both `search` functions: committed action, its
value, the root `alpha` (unused by Minimax) and the node count. -/
structure RootState : Type where
  best : Option Pos
  bestVal : EScore
  alpha : EScore
  cnt : Nat

/-- One root iteration of `AlphaBetaSearch.search` (alphabeta.py lines
62-74): evaluate the child with window `(alpha, +inf)`, commit the action
on `value > best_value`, then `alpha = max(alpha, best_value)`. -/
def abRootStep (ρ : Env → Nat) (fuel : Nat) (e : Env) (s : RootState) (a : Pos) : RootState :=
  let r := abMinVal ρ fuel (childState ρ e a) s.alpha ⊤
  if s.bestVal < r.1 then ⟨some a, r.1, max s.alpha r.1, s.cnt + r.2⟩
  else ⟨s.best, s.bestVal, max s.alpha s.bestVal, s.cnt + r.2⟩

/-- `AlphaBetaSearch.search` (alphabeta.py lines 31-87): root-level MAX
expansion with running `alpha`, no beta cutoff at the root, first
strictly-better action kept (`value > best_value`).  Returns the chosen
action and `_nodes_visited`. -/
def abSearch (ρ : Env → Nat) (maxDepth : Nat) (e : Env) : Option Pos × Nat :=
  if actionsList e = [] then (none, 0)
  else
    ((fun (res : RootState) => (res.best, res.cnt))
      ((actionsList e).foldl (abRootStep ρ (maxDepth - 1) e) ⟨none, ⊥, ⊥, 0⟩))

/-- One iteration of the action loops of `MinimaxSearch.max_value` /
`min_value` (minimax.py lines 109-114 and 144-149): evaluate the child
through `f` and fold with `comb` (`max` or `min`), counting the calls. -/
def mmStep (ρ : Env → Nat) (e : Env) (comb : EScore → EScore → EScore)
    (f : Env → EScore × Nat) (s : EScore × Nat) (a : Pos) : EScore × Nat :=
  (comb s.1 (f (childState ρ e a)).1, s.2 + (f (childState ρ e a)).2)

mutual

/-- `MinimaxSearch.max_value` (minimax.py lines 83-116), with remaining
depth `fuel` (source: `max_depth - depth`; the cutoff test
`depth >= self.max_depth` is `fuel = 0`).  The leaf evaluation `ev` is a
parameter so that the same exhaustive recursion can be instantiated with
`MinimaxNode.evaluate` (the shipped engine) or with
`AlphaBetaNode.evaluate` (the reference engine the pruning claim is checked
against).  The source keeps no node counter; the returned count is the
number of `max_value`/`min_value` invocations, the natural "nodes visited"
measure of the exhaustive search. -/
def mmMaxVal (ρ : Env → Nat) (ev : Env → Rat) : Nat → Env → EScore × Nat
  | 0, e => (toEScore (ev e), 1)
  | fuel + 1, e =>
      if (e.is_terminal).1 then (toEScore (ev e), 1)
      else (actionsList e).foldl (mmStep ρ e max (mmMinVal ρ ev fuel)) (⊥, 1)

/-- `MinimaxSearch.min_value` (minimax.py lines 118-151). -/
def mmMinVal (ρ : Env → Nat) (ev : Env → Rat) : Nat → Env → EScore × Nat
  | 0, e => (toEScore (ev e), 1)
  | fuel + 1, e =>
      if (e.is_terminal).1 then (toEScore (ev e), 1)
      else (actionsList e).foldl (mmStep ρ e min (mmMaxVal ρ ev fuel)) (⊤, 1)

end

/-- One root iteration of `MinimaxSearch.search` (minimax.py lines 59-75):
evaluate the child with `min_value` and commit on `val > best_val`. -/
def mmRootStep (ρ : Env → Nat) (ev : Env → Rat) (fuel : Nat) (e : Env)
    (s : RootState) (a : Pos) : RootState :=
  let r := mmMinVal ρ ev fuel (childState ρ e a)
  if s.bestVal < r.1 then ⟨some a, r.1, s.alpha, s.cnt + r.2⟩
  else ⟨s.best, s.bestVal, s.alpha, s.cnt + r.2⟩

/-- `MinimaxSearch.search` (minimax.py lines 35-81): evaluate every root
action with `min_value`, keep the first strictly-better one
(`val > best_val`).  The shipped engine is `mmSearch ρ minimaxEvalExact`.
The source returns only the action; the count is the same invocation count
as in `mmMinVal`. -/
def mmSearch (ρ : Env → Nat) (ev : Env → Rat) (maxDepth : Nat) (e : Env) : Option Pos × Nat :=
  if actionsList e = [] then (none, 0)
  else
    ((fun (res : RootState) => (res.best, res.cnt))
      ((actionsList e).foldl (mmRootStep ρ ev (maxDepth - 1) e) ⟨none, ⊥, ⊥, 0⟩))

/-- The deterministic trap-spawn oracle used to instantiate the engine
theorems: always draw 0. -/
def rho0 : Env → Nat := fun _ => 0

/-- A 4×4 board on which the two engines' different evaluation functions
make them commit to different root actions at depth 1. -/
def envC : Env :=
  { width := 4, height := 4, playerPos := (1, 1), enemyPos := (0, 1),
    goal := (3, 3), walls := ∅, traps := ∅,
    turn := Turn.player, turnCounter := 0 }

/-! ### A* pathfinding (astar.py; node.py is absent from the repository) -/

/-- Modelled from the spec: the A* search node class (the file
`algorithm/astar/node.py` that astar.py imports is absent from the
repository).  Spec §4.2 describes standard grid A*: an open set of nodes
keyed by `f = g + h` with insertion order as tie-break, `g` the cost from
the start, and `search` returning the full coordinate sequence — i.e. each
node carries its position, its g-value and (through parent pointers) the
start-to-node coordinate sequence, embedded here directly as `path`; the
goal test `current == goal_node` compares positions. -/
structure ANode : Type where
  position : Pos
  g : Nat
  path : List Pos
deriving DecidableEq

/-- A `heapq` entry `(f, counter, node)` of `AStar.search`. -/
abbrev AEntry : Type := Nat × Nat × ANode

/-- `heapq.heappop`: the entry minimal in the lexicographic order on
`(f, counter)`; counters are unique so the node itself is never compared. -/
def heapMin : List AEntry → Option AEntry
  | [] => none
  | x :: xs => some (xs.foldl (fun m y =>
      if y.1 < m.1 ∨ (y.1 = m.1 ∧ y.2.1 < m.2.1) then y else m) x)

/-- Lookup in the `open_set` dict, which the embedding keeps as an
association list where the most recent binding is consulted first (only the
g-value of the stored node is ever read). -/
def openLookup : List (Pos × Nat) → Pos → Option Nat
  | [], _ => none
  | x :: l, p => if x.1 = p then some x.2 else openLookup l p

/-- The direction order of `AStar.get_neighbors` (astar.py line 58). -/
def astarDirs : List Pos := [((1 : Int), (0 : Int)), (-1, 0), (0, 1), (0, -1)]

/-- The push of astar.py lines 133-142: set the neighbour scores
(`g = current.g + 1`, `h` = Manhattan, `f = g + h`), record it in
`open_set` and push `(f, counter, node)` onto the heap. -/
def astarPush (goal : Pos) (cur : ANode) (st : List AEntry × List (Pos × Nat) × Nat)
    (n : Pos) : List AEntry × List (Pos × Nat) × Nat :=
  (st.1 ++ [(cur.g + 1 + manhattan n goal, st.2.2, ⟨n, cur.g + 1, cur.path ++ [n]⟩)],
   (n, cur.g + 1) :: st.2.1, st.2.2 + 1)

/-- The neighbour-loop body of `AStar.search` (astar.py lines 120-142) for
one direction: bounds/wall filter (from `get_neighbors`), closed-set skip,
and the push-if-improved rule, threading `(open_heap, open_set, counter)`. -/
def astarExpand (e : Env) (goal : Pos) (cur : ANode) (closed : Finset Pos)
    (st : List AEntry × List (Pos × Nat) × Nat) (d : Pos) :
    List AEntry × List (Pos × Nat) × Nat :=
  let n : Pos := (cur.position.1 + d.1, cur.position.2 + d.2)
  if e.in_bounds n && !e.is_blocked n then
    if n ∈ closed then st
    else
      match openLookup st.2.1 n with
      | some og => if cur.g + 1 < og then astarPush goal cur st n else st
      | none => astarPush goal cur st n
  else st

/-- The main loop of `AStar.search` (astar.py lines 106-145) with explicit
fuel: pop the minimal entry, return its path when its position is the goal,
otherwise close the position and expand its neighbours.  `none` (out of
fuel) is distinguished from `some none` (heap exhausted, Python `None`). -/
def astarLoop (e : Env) (goal : Pos) :
    Nat → List AEntry → List (Pos × Nat) → Finset Pos → Nat →
    Option (Option (List Pos))
  | 0, _, _, _, _ => none
  | fuel + 1, heap, opn, closed, counter =>
      match heapMin heap with
      | none => some none
      | some en =>
          if en.2.2.position = goal then some (some en.2.2.path)
          else
            let st := astarDirs.foldl
              (astarExpand e goal en.2.2 (insert en.2.2.position closed))
              (heap.erase en, opn, counter)
            astarLoop e goal fuel st.1 st.2.1 (insert en.2.2.position closed) st.2.2

/-- `AStar.search` (astar.py lines 71-145): initial heap entry `(0, 0,
start_node)`, `open_set = {start: start_node}`, empty closed set,
counter 1. -/
def astarSearch (e : Env) (fuel : Nat) (start goal : Pos) :
    Option (Option (List Pos)) :=
  astarLoop e goal fuel [(0, 0, ⟨start, 0, [start]⟩)] [(start, 0)] ∅ 1

/-- A start-to-target coordinate sequence exactly as the algorithm builds
it: starts at `start`, ends at `tgt`, consecutive tiles 4-adjacent, and
every tile after the start in bounds and not a wall (the source never
validates the start tile itself). -/
def isPathTo (e : Env) (start tgt : Pos) (π : List Pos) : Prop :=
  π.head? = some start ∧ π.getLast? = some tgt ∧
  List.Chain' (fun p q => manhattan p q = 1) π ∧
  ∀ p ∈ π.tail, e.passable p

instance (e : Env) (start tgt : Pos) (π : List Pos) : Decidable (isPathTo e start tgt π) :=
  inferInstanceAs (Decidable (π.head? = some start ∧ π.getLast? = some tgt ∧
    List.Chain' (fun p q => manhattan p q = 1) π ∧ ∀ p ∈ π.tail, e.passable p))

/-- Indexing with a default, used by the index-form path predicate. -/
def pget (π : List Pos) (i : Nat) : Pos := π.getD i ((0 : Int), (0 : Int))

/-- Index form of `isPathTo` (`isPathTo_iff` proves them equivalent). -/
def PathIdx (e : Env) (start tgt : Pos) (π : List Pos) : Prop :=
  0 < π.length ∧ pget π 0 = start ∧ pget π (π.length - 1) = tgt ∧
  (∀ i, i + 1 < π.length → manhattan (pget π i) (pget π (i + 1)) = 1) ∧
  (∀ i, 0 < i → i < π.length → e.passable (pget π i))

/-- A path of minimal length among all paths from `s` to `t`. -/
def ShortestP (e : Env) (s t : Pos) (π : List Pos) : Prop :=
  PathIdx e s t π ∧ ∀ π2, PathIdx e s t π2 → π.length ≤ π2.length

/-- Heap-entry invariant: the entry holds a genuine path from the start to
its position of length `g + 1`, and its key is `g + h` (or the initial
`(0, 0)` start entry). -/
def EntryInv (e : Env) (start goal : Pos) (en : AEntry) : Prop :=
  PathIdx e start en.2.2.position en.2.2.path ∧
  en.2.2.path.length = en.2.2.g + 1 ∧
  (en.1 = en.2.2.g + manhattan en.2.2.position goal ∨ (en.1 = 0 ∧ en.2.2.g = 0))

/-- Open-set invariant: every recorded g-value is backed by a live heap
entry unless its position has been closed. -/
def OpenInvH (heap : List AEntry) (opn : List (Pos × Nat)) (closed : Finset Pos) : Prop :=
  ∀ p g, openLookup opn p = some g →
    p ∈ closed ∨ ∃ en ∈ heap, en.2.2.position = p ∧ en.2.2.g = g

/-- Frontier invariant: every reachable unclosed target has, on some
shortest path to it, a heap entry sitting at an unclosed position with an
optimal g-value and no closed position after it on the path. -/
def FrontierInv (e : Env) (start : Pos) (heap : List AEntry) (closed : Finset Pos) : Prop :=
  ∀ z, z ∉ closed → (∃ π0, PathIdx e start z π0) →
    ∃ en ∈ heap, ∃ π i, ShortestP e start z π ∧
      i < π.length ∧ pget π i = en.2.2.position ∧ en.2.2.g = i ∧
      en.2.2.position ∉ closed ∧
      ∀ j, i < j → j < π.length → pget π j ∉ closed

/-- The full loop invariant of `AStar.search`. -/
def AInv (e : Env) (start goal : Pos) (heap : List AEntry) (opn : List (Pos × Nat))
    (closed : Finset Pos) : Prop :=
  (∀ en ∈ heap, EntryInv e start goal en) ∧ OpenInvH heap opn closed ∧
  FrontierInv e start heap closed ∧ goal ∉ closed

/-- The coordinate sequence exactly as the spec words it: every tile —
including the start — in bounds and not a wall. -/
def isPathSpec (e : Env) (start tgt : Pos) (π : List Pos) : Prop :=
  π.head? = some start ∧ π.getLast? = some tgt ∧
  List.Chain' (fun p q => manhattan p q = 1) π ∧
  ∀ p ∈ π, e.passable p

instance (e : Env) (start tgt : Pos) (π : List Pos) :
    Decidable (isPathSpec e start tgt π) :=
  inferInstanceAs (Decidable (π.head? = some start ∧ π.getLast? = some tgt ∧
    List.Chain' (fun p q => manhattan p q = 1) π ∧ ∀ p ∈ π, e.passable p))

/-- A 2×1 board whose start tile (0,0) is a wall: `search` still threads a
path out of it. -/
def envW : Env :=
  { width := 2, height := 1, playerPos := (0, 0), enemyPos := (1, 0),
    goal := (1, 0), walls := {(0, 0)}, traps := ∅,
    turn := Turn.player, turnCounter := 0 }

/-- An obstacle-free 2×2 board. -/
def envF : Env :=
  { width := 2, height := 2, playerPos := (0, 0), enemyPos := (1, 1),
    goal := (1, 1), walls := ∅, traps := ∅,
    turn := Turn.player, turnCounter := 0 }

/-! ## Theorems -/

/-- The BFS layers of `get_move_range` compute exactly bounded graph
reachability: `q` is in layer set `n` iff a passable chain of length at most
`n` leads from `src` to `q`. -/
theorem mem_reachN (e : Env) (src : Pos) :
    ∀ n q, q ∈ Env.reachN e src n ↔ reachableIn e src n q := by
  intro n
  induction n with
  | zero =>
      intro q
      simp [Env.reachN, reachableIn]
  | succ n ih =>
      intro q
      simp only [Env.reachN, reachableIn, Finset.mem_union, Env.expandFrom,
        Finset.mem_biUnion, List.mem_toFinset, List.mem_filter, ih, and_assoc]

/-- Every tile in a BFS layer set other than the origin is passable. -/
theorem reachN_passable (e : Env) (src : Pos) :
    ∀ n q, q ∈ Env.reachN e src n → q = src ∨ e.passable q = true := by
  intro n
  induction n with
  | zero =>
      intro q hq
      exact Or.inl (Finset.mem_singleton.mp hq)
  | succ n ih =>
      intro q hq
      rcases Finset.mem_union.mp hq with h | h
      · exact ih q h
      · rcases Finset.mem_biUnion.mp h with ⟨p, _, hq⟩
        rcases List.mem_filter.mp (List.mem_toFinset.mp hq) with ⟨_, hpass⟩
        exact Or.inr hpass

/-- C3: for an in-bounds non-wall position `p` and any range `R`,
`get_move_range p R` is exactly the set of tiles at 4-directional graph
distance at most `R` from `p` through in-bounds non-wall tiles, excluding
`p` itself, and every returned tile is in bounds and not a wall. -/
theorem get_move_range_spec (e : Env) (p : Pos) (R : Nat)
    (hin : e.in_bounds p = true) (hwall : e.is_blocked p = false) :
    (∀ q, q ∈ e.get_move_range p R ↔ (q ≠ p ∧ reachableIn e p R q)) ∧
    (∀ q, q ∈ e.get_move_range p R → e.passable q = true) := by
  constructor
  · intro q
    rw [Env.get_move_range, Finset.mem_erase, mem_reachN]
  · intro q hq
    rcases Finset.mem_erase.mp hq with ⟨hne, hmem⟩
    rcases reachN_passable e p R q hmem with h | h
    · exact absurd h hne
    · exact h

/-- Witness for C3 on the concrete board `envA` at the player's position. -/
theorem get_move_range_spec_witness :
    (envA.in_bounds (0, 0) = true) ∧ (envA.is_blocked (0, 0) = false) ∧
    (∀ q, q ∈ envA.get_move_range (0, 0) 3 ↔
      (q ≠ (0, 0) ∧ reachableIn envA (0, 0) 3 q)) :=
  ⟨by decide, by decide, (get_move_range_spec envA (0, 0) 3 (by decide) (by decide)).1⟩

/-- C4: `is_terminal` reports exactly one reason, with goal taking priority
over trap and trap over caught; the final conjunct shows the non-terminal
case, so exactly one of the four outcomes applies to every state. -/
theorem isTerminal_priority :
    ∀ e : Env,
      (e.playerPos = e.goal → e.is_terminal = (true, some Reason.goal)) ∧
      (e.playerPos ≠ e.goal → e.playerPos ∈ e.traps →
        e.is_terminal = (true, some Reason.trap)) ∧
      (e.playerPos ≠ e.goal → e.playerPos ∉ e.traps → e.enemyPos = e.playerPos →
        e.is_terminal = (true, some Reason.caught)) ∧
      (e.playerPos ≠ e.goal → e.playerPos ∉ e.traps → e.enemyPos ≠ e.playerPos →
        e.is_terminal = (false, none)) := by
  intro e
  refine ⟨?_, ?_, ?_, ?_⟩ <;> intros <;> simp [Env.is_terminal, *]

/-- Witness for C4: on a board where the player stands on the goal and on a
trap simultaneously the reason is "goal"; on a board where the player stands
on a trap with the enemy collocated (and off the goal) the reason is
"trap". -/
theorem isTerminal_priority_witness :
    (({ envA with playerPos := (2, 0), traps := {(2, 0), (1, 2)} } : Env).is_terminal
      = (true, some Reason.goal)) ∧
    (({ envA with playerPos := (1, 2), enemyPos := (1, 2) } : Env).is_terminal
      = (true, some Reason.trap)) :=
  ⟨(isTerminal_priority _).1 (by decide),
   (isTerminal_priority _).2.1 (by decide) (by decide)⟩

/-- A state whose terminal flag is false is exactly the `(False, None)`
return of `is_terminal`. -/
theorem is_terminal_false (e : Env) (h : e.is_terminal.1 = false) :
    e.is_terminal = (false, none) := by
  unfold Env.is_terminal at *
  split_ifs at h ⊢ <;> simp_all

/-- Tiles produced by the `spawn_trap` comprehension avoid the player, the
enemy, the goal, walls and existing traps. -/
theorem emptyTiles_spec (e : Env) (t : Pos) (ht : t ∈ e.emptyTiles) :
    t ≠ e.playerPos ∧ t ≠ e.enemyPos ∧ t ≠ e.goal ∧ t ∉ e.walls ∧ t ∉ e.traps := by
  simp only [Env.emptyTiles, List.mem_flatMap, List.mem_filterMap, List.mem_range,
    Option.ite_none_right_eq_some, Option.some_inj] at ht
  obtain ⟨x, hx, y, hy, hcond, hEq⟩ := ht
  rw [← hEq]
  exact hcond

/-- When an eligible tile exists, `spawn_trap` adds exactly one new trap,
chosen from the eligible tiles. -/
theorem spawn_exact (e : Env) (r : Nat) (hne : e.emptyTiles ≠ []) :
    ∃ t, t ∈ e.emptyTiles ∧ (e.spawn_trap r).traps = insert t e.traps ∧
      t ∉ e.traps ∧ (e.spawn_trap r).traps.card = e.traps.card + 1 := by
  have hlen : 0 < e.emptyTiles.length := List.length_pos.mpr hne
  have hlt : r % e.emptyTiles.length < e.emptyTiles.length := Nat.mod_lt _ hlen
  have hempty : e.emptyTiles.isEmpty = false := by simp [List.isEmpty_iff, hne]
  have hspawn : e.spawn_trap r = { e with
      traps := insert (e.emptyTiles.getD (r % e.emptyTiles.length) ((0 : Int), (0 : Int))) e.traps } := by
    simp only [Env.spawn_trap, hempty, Bool.false_eq_true, if_false]
  have htm : e.emptyTiles.getD (r % e.emptyTiles.length) ((0 : Int), (0 : Int))
      ∈ e.emptyTiles := by
    rw [List.getD_eq_getElem?_getD, List.getElem?_eq_getElem hlt]
    exact List.getElem_mem hlt
  have htraps := (emptyTiles_spec e _ htm).2.2.2.2
  refine ⟨_, htm, ?_, htraps, ?_⟩
  · rw [hspawn]
  · rw [hspawn]
    exact Finset.card_insert_of_not_mem htraps

/-- `spawn_trap` never removes a trap. -/
theorem spawn_traps_mono (e : Env) (r : Nat) : e.traps ⊆ (e.spawn_trap r).traps := by
  unfold Env.spawn_trap
  split_ifs <;> simp [Finset.subset_insert]

/-- `spawn_trap` only alters `traps`. -/
theorem spawn_fields (e : Env) (r : Nat) :
    (e.spawn_trap r).playerPos = e.playerPos ∧ (e.spawn_trap r).enemyPos = e.enemyPos ∧
    (e.spawn_trap r).goal = e.goal ∧ (e.spawn_trap r).walls = e.walls ∧
    (e.spawn_trap r).turn = e.turn ∧ (e.spawn_trap r).turnCounter = e.turnCounter ∧
    (e.spawn_trap r).width = e.width ∧ (e.spawn_trap r).height = e.height := by
  unfold Env.spawn_trap
  split_ifs <;> simp

/-- The enemy turn hand-over never removes a trap. -/
theorem enemyAdvance_traps_mono (e : Env) (r : Nat) :
    e.traps ⊆ (e.enemyAdvance r).traps := by
  unfold Env.enemyAdvance
  split_ifs with h
  · exact spawn_traps_mono ({ e with turn := Turn.player, turnCounter := e.turnCounter + 1 }) r
  · exact Finset.Subset.refl _

/-- On the player's turn with a concrete action, `step` is the player phase. -/
theorem step_eq_player_some (e : Env) (a : Pos) (sim : Bool) (r : Nat)
    (f : Env → Env) (hp : e.turn = Turn.player) :
    e.step (some a) sim r f = Env.playerPhase2 (e.playerApply a) sim f := by
  unfold Env.step
  rw [hp]

/-- On the player's turn with `action=None`, `step` does nothing at all. -/
theorem step_eq_player_none (e : Env) (sim : Bool) (r : Nat)
    (f : Env → Env) (hp : e.turn = Turn.player) :
    e.step none sim r f = if sim then (e, some (false, none)) else (e, none) := by
  unfold Env.step
  rw [hp]

/-- On the enemy's turn, `step` is the enemy phase. -/
theorem step_eq_enemy (e : Env) (action : Option Pos) (sim : Bool) (r : Nat)
    (f : Env → Env) (hp : e.turn = Turn.enemy) :
    e.step action sim r f = Env.enemyPhase2 (e.enemyApply action) sim r f := by
  unfold Env.step
  rw [hp]

/-- The enemy move only alters `enemyPos`. -/
theorem enemyApply_fields (e : Env) (action : Option Pos) :
    (e.enemyApply action).traps = e.traps ∧ (e.enemyApply action).playerPos = e.playerPos ∧
    (e.enemyApply action).goal = e.goal ∧ (e.enemyApply action).walls = e.walls ∧
    (e.enemyApply action).turnCounter = e.turnCounter ∧ (e.enemyApply action).width = e.width ∧
    (e.enemyApply action).height = e.height ∧ (e.enemyApply action).turn = e.turn := by
  unfold Env.enemyApply
  cases action
  · simp
  · simp only []
    split_ifs <;> simp

/-- The player move only alters `playerPos`. -/
theorem playerApply_fields (e : Env) (a : Pos) :
    (e.playerApply a).traps = e.traps ∧ (e.playerApply a).enemyPos = e.enemyPos ∧
    (e.playerApply a).goal = e.goal ∧ (e.playerApply a).walls = e.walls ∧
    (e.playerApply a).turnCounter = e.turnCounter ∧ (e.playerApply a).turn = e.turn := by
  unfold Env.playerApply
  split_ifs <;> simp

/-- C5, counterexample: the claim fails as stated.  (a) On the player's
turn, `action=None` (a value outside every legal-move set) leaves the turn
with the player instead of advancing it.  (b) In an already-terminal state
an illegal action leaves the turn unchanged as well.  (c) On the enemy's
turn, the action `(3,0)` lies outside the enemy's legal-move set
(`get_valid_actions` uses range 2) yet `step` applies it, because the
legality check of `step` uses range 3 — the acting side's position does
change. -/
theorem step_illegal_counterexample :
    ((envA.stepSim none 0).1.turn = Turn.player ∧ envA.turn = Turn.player) ∧
    (((5, 5) : Pos) ∉ envAGoal.get_valid_actions ∧ envAGoal.turn = Turn.player ∧
      (envAGoal.stepSim (some (5, 5)) 0).1.turn = Turn.player) ∧
    (((3, 0) : Pos) ∉ envB.get_valid_actions ∧ envB.turn = Turn.enemy ∧
      (envB.stepSim (some (3, 0)) 0).1.enemyPos = (3, 0) ∧ envB.enemyPos = (3, 3)) := by
  refine ⟨⟨?_, ?_⟩, ⟨?_, ?_, ?_⟩, ⟨?_, ?_, ?_, ?_⟩⟩ <;> decide

/-- C5, amended: in a non-terminal state, a concrete (non-`None`) action
outside the range-3 move range that `step` itself checks (for the enemy
this is larger than the advertised range-2 legal-move set) is silently
ignored: no exception is modelled (`step` is total), neither position
changes, and the turn still advances to the other side. -/
theorem step_illegal_noop (e : Env) (a : Pos) (simulate : Bool) (r : Nat)
    (resetFn : Env → Env) (hterm : e.is_terminal.1 = false) :
    (e.turn = Turn.player → a ∉ e.get_move_range e.playerPos 3 →
      (e.step (some a) simulate r resetFn).1.playerPos = e.playerPos ∧
      (e.step (some a) simulate r resetFn).1.enemyPos = e.enemyPos ∧
      (e.step (some a) simulate r resetFn).1.turn = otherTurn e.turn) ∧
    (e.turn = Turn.enemy → a ∉ e.get_move_range e.enemyPos 3 →
      (e.step (some a) simulate r resetFn).1.playerPos = e.playerPos ∧
      (e.step (some a) simulate r resetFn).1.enemyPos = e.enemyPos ∧
      (e.step (some a) simulate r resetFn).1.turn = otherTurn e.turn) := by
  constructor
  · intro hp hleg
    rw [step_eq_player_some e a simulate r resetFn hp, hp]
    have h0 : e.playerApply a = e := by
      unfold Env.playerApply
      rw [if_neg hleg]
    unfold Env.playerPhase2
    rw [h0, hterm]
    cases simulate <;> simp [otherTurn]
  · intro hp hleg
    rw [step_eq_enemy e (some a) simulate r resetFn hp, hp]
    have h0 : e.enemyApply (some a) = e := by
      unfold Env.enemyApply
      simp only []
      rw [if_neg hleg]
    unfold Env.enemyPhase2
    rw [h0, hterm]
    have hs := spawn_fields ({ e with turn := Turn.player, turnCounter := e.turnCounter + 1 }) r
    cases simulate <;> simp [Env.enemyAdvance, otherTurn] <;> split_ifs <;> simp_all

/-- Witness for C5 (amended): the illegal player action `(2,0)` on `envA`
is ignored and the turn passes to the enemy. -/
theorem step_illegal_noop_witness :
    envA.is_terminal.1 = false ∧ envA.turn = Turn.player ∧
    ((2, 0) : Pos) ∉ envA.get_move_range envA.playerPos 3 ∧
    (envA.stepSim (some (2, 0)) 0).1.playerPos = envA.playerPos ∧
    (envA.stepSim (some (2, 0)) 0).1.enemyPos = envA.enemyPos ∧
    (envA.stepSim (some (2, 0)) 0).1.turn = otherTurn envA.turn :=
  ⟨by decide, by decide, by decide,
   (step_illegal_noop envA (2, 0) true 0 id (by decide)).1 (by decide) (by decide)⟩

/-- C10, counterexample: in a terminal state on the enemy's turn (enemy
collocated with the player), `step` with `action=None` reports the terminal
result without advancing the turn or incrementing the counter, so the
enemy-side clause of the claim fails as universally stated. -/
theorem step_none_counterexample :
    envACaught.turn = Turn.enemy ∧
    (envACaught.stepSim none 0).2 = some (true, some Reason.caught) ∧
    (envACaught.stepSim none 0).1.turn = Turn.enemy ∧
    (envACaught.stepSim none 0).1.turnCounter = envACaught.turnCounter := by
  refine ⟨?_, ?_, ?_, ?_⟩ <;> decide

/-- C10, amended: `step` with `action=None` is asymmetric.  On the player's
turn it is a complete no-op — the state is returned unchanged (turn not
advanced, counter untouched) with result `(False, None)` even in terminal
states.  On the enemy's turn in a NON-terminal state, the enemy stays in
place while the turn advances to the player, the counter is incremented,
and a trap is spawned exactly when the incremented counter hits the
cadence; in a terminal state the terminal result is reported without
advancing the turn. -/
theorem step_none_asymmetry :
    (∀ (e : Env) (r : Nat), e.turn = Turn.player →
      e.stepSim none r = (e, some (false, none))) ∧
    (∀ (e : Env) (r : Nat), e.turn = Turn.enemy → e.is_terminal.1 = false →
      e.stepSim none r =
        (if (e.turnCounter + 1) % 3 = 0
          then ({ e with turn := Turn.player, turnCounter := e.turnCounter + 1 } : Env).spawn_trap r
          else { e with turn := Turn.player, turnCounter := e.turnCounter + 1 },
         some (false, none)) ∧
      (e.stepSim none r).1.enemyPos = e.enemyPos ∧
      (e.stepSim none r).1.playerPos = e.playerPos ∧
      (e.stepSim none r).1.turn = Turn.player ∧
      (e.stepSim none r).1.turnCounter = e.turnCounter + 1) := by
  constructor
  · intro e r hp
    unfold Env.stepSim
    rw [step_eq_player_none e true r id hp]
    simp
  · intro e r hp hterm
    have hmain : e.stepSim none r =
        (if (e.turnCounter + 1) % 3 = 0
          then ({ e with turn := Turn.player, turnCounter := e.turnCounter + 1 } : Env).spawn_trap r
          else { e with turn := Turn.player, turnCounter := e.turnCounter + 1 },
         some (false, none)) := by
      unfold Env.stepSim
      rw [step_eq_enemy e none true r id hp]
      have h0 : e.enemyApply none = e := rfl
      unfold Env.enemyPhase2
      rw [h0, hterm]
      simp [Env.enemyAdvance]
    have hs := spawn_fields ({ e with turn := Turn.player, turnCounter := e.turnCounter + 1 }) r
    refine ⟨hmain, ?_, ?_, ?_, ?_⟩ <;> rw [hmain] <;> split_ifs <;> simp_all

/-- Witness for C10 (amended): the player-side no-op on `envA`, and the
enemy-side advance-and-spawn on the non-terminal enemy-turn board `envB`
(whose counter 2 makes the cadence fire). -/
theorem step_none_asymmetry_witness :
    (envA.stepSim none 3 = (envA, some (false, none))) ∧
    (envB.stepSim none 7 =
      (if (envB.turnCounter + 1) % 3 = 0
        then ({ envB with turn := Turn.player, turnCounter := envB.turnCounter + 1 } : Env).spawn_trap 7
        else { envB with turn := Turn.player, turnCounter := envB.turnCounter + 1 },
       some (false, none))) :=
  ⟨step_none_asymmetry.1 envA 3 (by decide),
   (step_none_asymmetry.2 envB 7 (by decide) (by decide)).1⟩

/-- C6: trap bookkeeping along an episode of `step` calls.  (1) A `step`
never removes a trap.  (2) Player turns touch neither the trap set nor the
turn counter.  (3) A completed seeker turn whose incremented counter misses
the cadence adds no trap (so starting from counter 0 the first two seeker
turns add none).  (4) When an eligible tile exists, `spawn_trap` adds
exactly one trap, on an eligible tile.  (5) A completed seeker turn whose
incremented counter hits the cadence (the third seeker turn from counter 0)
hands the player the post-move state with `spawn_trap` applied — so by (4)
the trap set grows by exactly one when an eligible tile exists. -/
theorem trap_spawn_cadence :
    (∀ (e : Env) (a : Option Pos) (r : Nat), e.traps ⊆ (e.stepSim a r).1.traps) ∧
    (∀ (e : Env) (a : Option Pos) (r : Nat), e.turn = Turn.player →
      (e.stepSim a r).1.traps = e.traps ∧
      (e.stepSim a r).1.turnCounter = e.turnCounter) ∧
    (∀ (e : Env) (a : Option Pos) (r : Nat), e.turn = Turn.enemy →
      ¬ (e.turnCounter + 1) % 3 = 0 → (e.stepSim a r).1.traps = e.traps) ∧
    (∀ (e : Env) (r : Nat), e.emptyTiles ≠ [] →
      ∃ t, t ∈ e.emptyTiles ∧ (e.spawn_trap r).traps = insert t e.traps ∧
        t ∉ e.traps ∧ (e.spawn_trap r).traps.card = e.traps.card + 1) ∧
    (∀ (e : Env) (a : Option Pos) (r : Nat), e.turn = Turn.enemy →
      (e.stepSim a r).2 = some (false, none) → (e.turnCounter + 1) % 3 = 0 →
      ∃ e2 : Env, e2.traps = e.traps ∧ e2.playerPos = e.playerPos ∧ e2.goal = e.goal ∧
        e2.walls = e.walls ∧ e2.turnCounter = e.turnCounter + 1 ∧ e2.turn = Turn.player ∧
        (e.stepSim a r).1 = e2.spawn_trap r) := by
  refine ⟨?_, ?_, ?_, ?_, ?_⟩
  · intro e a r
    unfold Env.stepSim
    rcases ht : e.turn
    · rcases a with _ | av
      · rw [step_eq_player_none e true r id ht]
        simp
      · rw [step_eq_player_some e av true r id ht]
        unfold Env.playerPhase2
        have h1 := (playerApply_fields e av).1
        split_ifs <;> simp [h1, Finset.Subset.refl]
    · rw [step_eq_enemy e a true r id ht]
      unfold Env.enemyPhase2
      have h1 := (enemyApply_fields e a).1
      have h2 := enemyAdvance_traps_mono (e.enemyApply a) r
      rw [h1] at h2
      split_ifs <;> first
        | (exact le_of_eq h1.symm)
        | (exact h2)
        | simp_all
  · intro e a r hp
    unfold Env.stepSim
    rcases a with _ | av
    · rw [step_eq_player_none e true r id hp]
      simp
    · rw [step_eq_player_some e av true r id hp]
      have h1 := playerApply_fields e av
      unfold Env.playerPhase2
      split_ifs <;> simp [h1.1, h1.2.2.2.2.1]
  · intro e a r hp hc
    unfold Env.stepSim
    rw [step_eq_enemy e a true r id hp]
    have h1 := (enemyApply_fields e a).1
    have h2 := (enemyApply_fields e a).2.2.2.2.1
    unfold Env.enemyPhase2 Env.enemyAdvance
    rw [h2]
    split_ifs <;> simp_all
  · intro e r hne
    exact spawn_exact e r hne
  · intro e a r hp hdone hc
    unfold Env.stepSim at *
    rw [step_eq_enemy e a true r id hp] at *
    have h1 := enemyApply_fields e a
    unfold Env.enemyPhase2 at *
    split_ifs at hdone with ht
    · simp at hdone
    · refine ⟨{ e.enemyApply a with turn := Turn.player, turnCounter := (e.enemyApply a).turnCounter + 1 }, ?_, ?_, ?_, ?_, ?_, ?_, ?_⟩
      · exact h1.1
      · exact h1.2.1
      · exact h1.2.2.1
      · exact h1.2.2.2.1
      · rw [h1.2.2.2.2.1]
      · rfl
      · rw [if_neg ht]
        simp only [if_true, ite_true]
        simp only [Env.enemyAdvance]
        rw [h1.2.2.2.2.1, if_pos hc]

/-- Witness for C6: on the enemy-turn board `envB` with counter 2 (third
seeker turn completing), the step hands back a `spawn_trap` state, and the
board's eligible-tile list is non-empty so exactly one trap is added. -/
theorem trap_spawn_cadence_witness :
    (envB.traps ⊆ (envB.stepSim none 0).1.traps) ∧
    (envB.emptyTiles ≠ [] ∧
      ∃ t, t ∈ envB.emptyTiles ∧ (envB.spawn_trap 0).traps = insert t envB.traps ∧
        t ∉ envB.traps ∧ (envB.spawn_trap 0).traps.card = envB.traps.card + 1) ∧
    (envB.turn = Turn.enemy ∧ (envB.turnCounter + 1) % 3 = 0 ∧
      ∃ e2 : Env, e2.traps = envB.traps ∧ e2.playerPos = envB.playerPos ∧
        e2.goal = envB.goal ∧ e2.walls = envB.walls ∧
        e2.turnCounter = envB.turnCounter + 1 ∧ e2.turn = Turn.player ∧
        (envB.stepSim none 0).1 = e2.spawn_trap 0) :=
  ⟨trap_spawn_cadence.1 envB none 0,
   ⟨by decide, trap_spawn_cadence.2.2.2.1 envB 0 (by decide)⟩,
   ⟨by decide, by decide,
    trap_spawn_cadence.2.2.2.2 envB none 0 (by decide) (by decide) (by decide)⟩⟩

/-- Reading a heap cell is unaffected by appending a fresh cell, as long as
the reference is valid. -/
theorem derefTraps_append (h : TrapHeap) (o : EnvObj) (x : Finset Pos)
    (hv : o.trapsRef < h.length) : derefTraps (h ++ [x]) o = derefTraps h o := by
  unfold derefTraps
  rw [List.getD_eq_getElem?_getD, List.getD_eq_getElem?_getD, List.getElem?_append_left hv]

/-- Reading a heap cell is unaffected by writing through a different
reference. -/
theorem derefTraps_set_ne (h : TrapHeap) (o : EnvObj) (j : Nat) (x : Finset Pos)
    (hne : o.trapsRef ≠ j) : derefTraps (h.set j x) o = derefTraps h o := by
  unfold derefTraps
  rw [List.getD_eq_getElem?_getD, List.getD_eq_getElem?_getD,
    List.getElem?_set_ne (Ne.symm hne)]

/-- The freshly allocated cell of a clone holds the copied set. -/
theorem derefTraps_clone (h : TrapHeap) (o : EnvObj) :
    derefTraps (cloneObj h o).1 (cloneObj h o).2 = derefTraps h o := by
  unfold cloneObj derefTraps
  rw [List.getD_eq_getElem?_getD, List.getElem?_concat_length]
  rfl

/-- C2: `clone` is a fully independent deep copy.  With a valid traps
reference, (i) the clone observes exactly the same seven game-state fields
as the original, (ii) the allocation leaves the original's observable state
intact, and (iii) mutating the clone — one `step` with any action and any
RNG draw, or a direct `traps.add` — leaves every observable game-state
field of the original unchanged. -/
theorem clone_independence (h : TrapHeap) (o : EnvObj)
    (hv : o.trapsRef < h.length) :
    (toEnv (cloneObj h o).1 (cloneObj h o).2 = toEnv h o) ∧
    (toEnv (cloneObj h o).1 o = toEnv h o) ∧
    (∀ (a : Option Pos) (r : Nat),
      toEnv (stepObj (cloneObj h o).1 (cloneObj h o).2 a r).1 o = toEnv h o) ∧
    (∀ t : Pos, toEnv (addTrapObj (cloneObj h o).1 (cloneObj h o).2 t) o = toEnv h o) := by
  have hc1 : (cloneObj h o).1 = h ++ [derefTraps h o] := rfl
  have hc2 : (cloneObj h o).2.trapsRef = h.length := rfl
  refine ⟨?_, ?_, ?_, ?_⟩
  · unfold toEnv
    rw [derefTraps_clone]
    exact rfl
  · unfold toEnv
    rw [hc1, derefTraps_append h o _ hv]
  · intro a r
    unfold toEnv stepObj
    simp only [hc2]
    rw [derefTraps_set_ne _ o h.length _ (Nat.ne_of_lt hv), hc1,
      derefTraps_append h o _ hv]
  · intro t
    unfold toEnv addTrapObj
    simp only [hc2]
    rw [derefTraps_set_ne _ o h.length _ (Nat.ne_of_lt hv), hc1,
      derefTraps_append h o _ hv]

/-- Witness for C2: a one-cell heap holding `envA`'s trap set and an object
denoting `envA`; the clone agrees with the original and a trap added to the
clone does not appear in the original's observed trap set. -/
theorem clone_independence_witness :
    (0 < ([{((1 : Int), (2 : Int))}] : TrapHeap).length) ∧
    (∀ t : Pos, toEnv
      (addTrapObj
        (cloneObj [{((1 : Int), (2 : Int))}]
          ⟨3, 3, (0, 0), (2, 2), (2, 0), {(1, 0)}, 0, Turn.player, 0⟩).1
        (cloneObj [{((1 : Int), (2 : Int))}]
          ⟨3, 3, (0, 0), (2, 2), (2, 0), {(1, 0)}, 0, Turn.player, 0⟩).2 t)
      ⟨3, 3, (0, 0), (2, 2), (2, 0), {(1, 0)}, 0, Turn.player, 0⟩ =
      toEnv [{((1 : Int), (2 : Int))}]
        ⟨3, 3, (0, 0), (2, 2), (2, 0), {(1, 0)}, 0, Turn.player, 0⟩) :=
  ⟨by decide,
   (clone_independence [{((1 : Int), (2 : Int))}]
     ⟨3, 3, (0, 0), (2, 2), (2, 0), {(1, 0)}, 0, Turn.player, 0⟩
     (by decide)).2.2.2⟩

/-! ## Alpha-beta versus exhaustive minimax (C1) -/

theorem mmStep_val (ρ : Env → Nat) (e : Env) (comb : EScore → EScore → EScore)
    (g : Env → EScore × Nat) (s : EScore × Nat) (a : Pos) :
    (mmStep ρ e comb g s a).1 = comb s.1 (g (childState ρ e a)).1 := rfl

theorem mmFoldMax_val_mono (ρ : Env → Nat) (e : Env) (g : Env → EScore × Nat) :
    ∀ (actions : List Pos) (s : EScore × Nat),
      s.1 ≤ (actions.foldl (mmStep ρ e max g) s).1 := by
  intro actions
  induction actions with
  | nil => intro s; exact le_refl _
  | cons a rest ih =>
      intro s
      simp only [List.foldl_cons]
      refine le_trans ?_ (ih _)
      rw [mmStep_val]
      exact le_max_left _ _

theorem mmFoldMin_val_mono (ρ : Env → Nat) (e : Env) (g : Env → EScore × Nat) :
    ∀ (actions : List Pos) (s : EScore × Nat),
      (actions.foldl (mmStep ρ e min g) s).1 ≤ s.1 := by
  intro actions
  induction actions with
  | nil => intro s; exact le_refl _
  | cons a rest ih =>
      intro s
      simp only [List.foldl_cons]
      refine le_trans (ih _) ?_
      rw [mmStep_val]
      exact min_le_left _ _

theorem abFoldMax_window (ρ : Env → Nat) (e : Env) (beta : EScore)
    (f : Env → EScore → EScore → EScore × Nat) (g : Env → EScore × Nat)
    (hP : ∀ env a2 b2, a2 < b2 →
      min b2 (g env).1 ≤ max a2 (f env a2 b2).1 ∧
      min b2 (f env a2 b2).1 ≤ max a2 (g env).1)
    (alpha : EScore) (hab : alpha < beta) :
    ∀ (actions : List Pos) (sab : ABState) (smm : EScore × Nat),
      ((sab.stop = false ∧ sab.bound = max alpha sab.v ∧
        smm.1 ≤ max alpha sab.v ∧ sab.v ≤ max alpha smm.1 ∧ sab.v < beta) ∨
       (sab.stop = true ∧ beta ≤ sab.v ∧ beta ≤ smm.1)) →
      min beta (actions.foldl (mmStep ρ e max g) smm).1 ≤
        max alpha (actions.foldl (abStepMax ρ e beta f) sab).v ∧
      min beta (actions.foldl (abStepMax ρ e beta f) sab).v ≤
        max alpha (actions.foldl (mmStep ρ e max g) smm).1 := by
  intro actions
  induction actions with
  | nil =>
      intro sab smm h
      simp only [List.foldl_nil]
      rcases h with ⟨_, _, h1, h2, h3⟩ | ⟨_, h1, h2⟩
      · constructor
        · exact le_trans (min_le_right _ _) h1
        · rw [min_eq_right (le_of_lt h3)]
          exact h2
      · constructor
        · rw [min_eq_left h2]
          exact le_trans h1 (le_max_right _ _)
        · rw [min_eq_left h1]
          exact le_trans h2 (le_max_right _ _)
  | cons a rest ih =>
      intro sab smm h
      simp only [List.foldl_cons]
      rcases h with ⟨hstop, hbound, h1, h2, h3⟩ | ⟨hstop, h1, h2⟩
      · -- not yet stopped: one genuine loop iteration
        have hbound_lt : sab.bound < beta := by
          rw [hbound]
          exact max_lt hab h3
        obtain ⟨hc1, hc2⟩ := hP (childState ρ e a) sab.bound beta hbound_lt
        by_cases hcut : beta ≤ max sab.v (f (childState ρ e a) sab.bound beta).1
        · -- beta cutoff: the alpha-beta loop stops here
          have hstep : abStepMax ρ e beta f sab a =
              ⟨max sab.v (f (childState ρ e a) sab.bound beta).1, sab.bound,
               sab.cnt + (f (childState ρ e a) sab.bound beta).2, true⟩ := by
            simp [abStepMax, hstop, hcut]
          rw [hstep]
          have hrbeta : beta ≤ (f (childState ρ e a) sab.bound beta).1 := by
            rcases le_max_iff.mp hcut with hv | hr
            · exact absurd hv (not_le.mpr h3)
            · exact hr
          have hvc : beta ≤ (g (childState ρ e a)).1 := by
            rw [min_eq_left hrbeta] at hc2
            rcases le_max_iff.mp hc2 with hb | hv
            · exact absurd hb (not_le.mpr hbound_lt)
            · exact hv
          refine ih _ _ (Or.inr ⟨rfl, hcut, ?_⟩)
          rw [mmStep_val]
          exact le_trans hvc (le_max_right _ _)
        · -- no cutoff: invariants are maintained
          have hstep : abStepMax ρ e beta f sab a =
              ⟨max sab.v (f (childState ρ e a) sab.bound beta).1,
               max sab.bound (max sab.v (f (childState ρ e a) sab.bound beta).1),
               sab.cnt + (f (childState ρ e a) sab.bound beta).2, false⟩ := by
            simp [abStepMax, hstop, hcut]
          rw [hstep]
          have hvlt : max sab.v (f (childState ρ e a) sab.bound beta).1 < beta :=
            not_le.mp hcut
          have hrlt : (f (childState ρ e a) sab.bound beta).1 < beta :=
            lt_of_le_of_lt (le_max_right _ _) hvlt
          have hvclt : (g (childState ρ e a)).1 < beta := by
            by_contra hge
            push_neg at hge
            rw [min_eq_left hge] at hc1
            rcases le_max_iff.mp hc1 with hb | hr
            · exact absurd hb (not_le.mpr hbound_lt)
            · exact absurd hr (not_le.mpr hrlt)
          rw [min_eq_right (le_of_lt hvclt)] at hc1
          rw [min_eq_right (le_of_lt hrlt)] at hc2
          refine ih _ _ (Or.inl ⟨rfl, ?_, ?_, ?_, hvlt⟩)
          · show max sab.bound (max sab.v (f (childState ρ e a) sab.bound beta).1) =
              max alpha (max sab.v (f (childState ρ e a) sab.bound beta).1)
            rw [hbound, max_assoc, ← max_assoc sab.v sab.v, max_self]
          · show (mmStep ρ e max g smm a).1 ≤
              max alpha (max sab.v (f (childState ρ e a) sab.bound beta).1)
            rw [mmStep_val]
            refine max_le ?_ ?_
            · exact le_trans h1 (max_le_max (le_refl _) (le_max_left _ _))
            · refine le_trans hc1 (le_of_eq ?_)
              rw [hbound, max_assoc]
          · show max sab.v (f (childState ρ e a) sab.bound beta).1 ≤
              max alpha (mmStep ρ e max g smm a).1
            rw [mmStep_val]
            refine max_le ?_ ?_
            · exact le_trans h2 (max_le_max (le_refl _) (le_max_left _ _))
            · refine le_trans hc2 ?_
              rw [hbound]
              have hv : sab.v ≤ max alpha (max smm.1 (g (childState ρ e a)).1) :=
                le_trans h2 (max_le_max (le_refl _) (le_max_left _ _))
              refine max_le (max_le (le_max_left _ _) hv) ?_
              exact le_trans (le_max_right smm.1 _) (le_max_right alpha _)
      · -- already stopped: the alpha-beta fold is inert
        have hstep : abStepMax ρ e beta f sab a = sab := by
          simp [abStepMax, hstop]
        rw [hstep]
        refine ih _ _ (Or.inr ⟨hstop, h1, ?_⟩)
        rw [mmStep_val]
        exact le_trans h2 (le_max_left _ _)

theorem abFoldMin_window (ρ : Env → Nat) (e : Env) (alpha : EScore)
    (f : Env → EScore → EScore → EScore × Nat) (g : Env → EScore × Nat)
    (hP : ∀ env a2 b2, a2 < b2 →
      min b2 (g env).1 ≤ max a2 (f env a2 b2).1 ∧
      min b2 (f env a2 b2).1 ≤ max a2 (g env).1)
    (beta : EScore) (hab : alpha < beta) :
    ∀ (actions : List Pos) (sab : ABState) (smm : EScore × Nat),
      ((sab.stop = false ∧ sab.bound = min beta sab.v ∧
        min beta sab.v ≤ smm.1 ∧ min beta smm.1 ≤ sab.v ∧ alpha < sab.v) ∨
       (sab.stop = true ∧ sab.v ≤ alpha ∧ smm.1 ≤ alpha)) →
      min beta (actions.foldl (mmStep ρ e min g) smm).1 ≤
        max alpha (actions.foldl (abStepMin ρ e alpha f) sab).v ∧
      min beta (actions.foldl (abStepMin ρ e alpha f) sab).v ≤
        max alpha (actions.foldl (mmStep ρ e min g) smm).1 := by
  intro actions
  induction actions with
  | nil =>
      intro sab smm h
      simp only [List.foldl_nil]
      rcases h with ⟨_, _, h1, h2, h3⟩ | ⟨_, h1, h2⟩
      · constructor
        · exact le_trans h2 (le_max_right _ _)
        · exact le_trans h1 (le_max_right _ _)
      · constructor
        · exact le_trans (min_le_right _ _) (le_trans h2 (le_max_left _ _))
        · exact le_trans (min_le_right _ _) (le_trans h1 (le_max_left _ _))
  | cons a rest ih =>
      intro sab smm h
      simp only [List.foldl_cons]
      rcases h with ⟨hstop, hbound, h1, h2, h3⟩ | ⟨hstop, h1, h2⟩
      · -- not yet stopped: one genuine loop iteration
        have hbound_gt : alpha < sab.bound := by
          rw [hbound]
          exact lt_min hab h3
        obtain ⟨hc1, hc2⟩ := hP (childState ρ e a) alpha sab.bound hbound_gt
        by_cases hcut : min sab.v (f (childState ρ e a) alpha sab.bound).1 ≤ alpha
        · -- alpha cutoff: the alpha-beta loop stops here
          have hstep : abStepMin ρ e alpha f sab a =
              ⟨min sab.v (f (childState ρ e a) alpha sab.bound).1, sab.bound,
               sab.cnt + (f (childState ρ e a) alpha sab.bound).2, true⟩ := by
            simp [abStepMin, hstop, hcut]
          rw [hstep]
          have hralpha : (f (childState ρ e a) alpha sab.bound).1 ≤ alpha := by
            rcases min_le_iff.mp hcut with hv | hr
            · exact absurd hv (not_le.mpr h3)
            · exact hr
          have hvc : (g (childState ρ e a)).1 ≤ alpha := by
            rw [max_eq_left hralpha] at hc1
            rcases min_le_iff.mp hc1 with hb | hv
            · exact absurd hb (not_le.mpr hbound_gt)
            · exact hv
          refine ih _ _ (Or.inr ⟨rfl, hcut, ?_⟩)
          rw [mmStep_val]
          exact le_trans (min_le_right _ _) hvc
        · -- no cutoff: invariants are maintained
          have hstep : abStepMin ρ e alpha f sab a =
              ⟨min sab.v (f (childState ρ e a) alpha sab.bound).1,
               min sab.bound (min sab.v (f (childState ρ e a) alpha sab.bound).1),
               sab.cnt + (f (childState ρ e a) alpha sab.bound).2, false⟩ := by
            simp [abStepMin, hstop, hcut]
          rw [hstep]
          have hvgt : alpha < min sab.v (f (childState ρ e a) alpha sab.bound).1 :=
            not_le.mp hcut
          have hrgt : alpha < (f (childState ρ e a) alpha sab.bound).1 :=
            lt_of_lt_of_le hvgt (min_le_right _ _)
          have hvcgt : alpha < (g (childState ρ e a)).1 := by
            by_contra hle
            push_neg at hle
            rw [max_eq_left hle] at hc2
            rcases min_le_iff.mp hc2 with hb | hr
            · exact absurd hb (not_le.mpr hbound_gt)
            · exact absurd hr (not_le.mpr hrgt)
          rw [max_eq_right (le_of_lt hvcgt)] at hc2
          rw [max_eq_right (le_of_lt hrgt)] at hc1
          refine ih _ _ (Or.inl ⟨rfl, ?_, ?_, ?_, hvgt⟩)
          · show min sab.bound (min sab.v (f (childState ρ e a) alpha sab.bound).1) =
              min beta (min sab.v (f (childState ρ e a) alpha sab.bound).1)
            rw [hbound, min_assoc, ← min_assoc sab.v sab.v, min_self]
          · show min beta (min sab.v (f (childState ρ e a) alpha sab.bound).1) ≤
              (mmStep ρ e min g smm a).1
            rw [mmStep_val]
            refine le_min ?_ ?_
            · exact le_trans (min_le_min (le_refl _) (min_le_left _ _)) h1
            · refine le_trans (le_of_eq ?_) hc2
              rw [hbound, min_assoc]
          · show min beta (mmStep ρ e min g smm a).1 ≤
              min sab.v (f (childState ρ e a) alpha sab.bound).1
            rw [mmStep_val]
            refine le_min ?_ ?_
            · exact le_trans (min_le_min (le_refl _) (min_le_left _ _)) h2
            · refine le_trans ?_ hc1
              rw [hbound]
              have hv : min beta (min smm.1 (g (childState ρ e a)).1) ≤ sab.v :=
                le_trans (min_le_min (le_refl _) (min_le_left _ _)) h2
              refine le_min (le_min (min_le_left _ _) hv) ?_
              exact le_trans (min_le_right beta _) (min_le_right smm.1 _)
      · -- already stopped: the alpha-beta fold is inert
        have hstep : abStepMin ρ e alpha f sab a = sab := by
          simp [abStepMin, hstop]
        rw [hstep]
        refine ih _ _ (Or.inr ⟨hstop, h1, ?_⟩)
        rw [mmStep_val]
        exact le_trans (min_le_left _ _) h2

theorem ab_window (ρ : Env → Nat) :
    ∀ (fuel : Nat) (e : Env) (alpha beta : EScore), alpha < beta →
      (min beta (mmMaxVal ρ alphaBetaEvaluate fuel e).1 ≤
          max alpha (abMaxVal ρ fuel e alpha beta).1 ∧
       min beta (abMaxVal ρ fuel e alpha beta).1 ≤
          max alpha (mmMaxVal ρ alphaBetaEvaluate fuel e).1) ∧
      (min beta (mmMinVal ρ alphaBetaEvaluate fuel e).1 ≤
          max alpha (abMinVal ρ fuel e alpha beta).1 ∧
       min beta (abMinVal ρ fuel e alpha beta).1 ≤
          max alpha (mmMinVal ρ alphaBetaEvaluate fuel e).1) := by
  intro fuel
  induction fuel with
  | zero =>
      intro e alpha beta hab
      refine ⟨⟨?_, ?_⟩, ⟨?_, ?_⟩⟩ <;>
        exact le_trans (min_le_right _ _) (le_max_right _ _)
  | succ fuel ih =>
      intro e alpha beta hab
      have hbot : (⊥ : EScore) < beta := lt_of_le_of_lt bot_le hab
      have htop : alpha < (⊤ : EScore) := lt_of_lt_of_le hab le_top
      constructor
      · unfold abMaxVal mmMaxVal
        split_ifs with ht
        · exact ⟨le_trans (min_le_right _ _) (le_max_right _ _),
            le_trans (min_le_right _ _) (le_max_right _ _)⟩
        · exact abFoldMax_window ρ e beta (abMinVal ρ fuel)
            (mmMinVal ρ alphaBetaEvaluate fuel)
            (fun env a2 b2 h2 => (ih env a2 b2 h2).2) alpha hab (actionsList e)
            ⟨⊥, alpha, 1, false⟩ (⊥, 1)
            (Or.inl ⟨rfl, (sup_bot_eq alpha).symm, bot_le, bot_le, hbot⟩)
      · unfold abMinVal mmMinVal
        split_ifs with ht
        · exact ⟨le_trans (min_le_right _ _) (le_max_right _ _),
            le_trans (min_le_right _ _) (le_max_right _ _)⟩
        · exact abFoldMin_window ρ e alpha (abMaxVal ρ fuel)
            (mmMaxVal ρ alphaBetaEvaluate fuel)
            (fun env a2 b2 h2 => (ih env a2 b2 h2).1) beta hab (actionsList e)
            ⟨⊤, beta, 1, false⟩ (⊤, 1)
            (Or.inl ⟨rfl, (inf_top_eq beta).symm, le_top, le_top, htop⟩)

theorem abRootStep_pos (ρ : Env → Nat) (fuel : Nat) (e : Env) (s : RootState) (a : Pos)
    (h : s.bestVal < (abMinVal ρ fuel (childState ρ e a) s.alpha ⊤).1) :
    abRootStep ρ fuel e s a =
      ⟨some a, (abMinVal ρ fuel (childState ρ e a) s.alpha ⊤).1,
       max s.alpha (abMinVal ρ fuel (childState ρ e a) s.alpha ⊤).1,
       s.cnt + (abMinVal ρ fuel (childState ρ e a) s.alpha ⊤).2⟩ := by
  simp [abRootStep, h]

theorem abRootStep_neg (ρ : Env → Nat) (fuel : Nat) (e : Env) (s : RootState) (a : Pos)
    (h : ¬ s.bestVal < (abMinVal ρ fuel (childState ρ e a) s.alpha ⊤).1) :
    abRootStep ρ fuel e s a =
      ⟨s.best, s.bestVal, max s.alpha s.bestVal,
       s.cnt + (abMinVal ρ fuel (childState ρ e a) s.alpha ⊤).2⟩ := by
  simp [abRootStep, h]

theorem mmRootStep_pos (ρ : Env → Nat) (ev : Env → Rat) (fuel : Nat) (e : Env)
    (s : RootState) (a : Pos)
    (h : s.bestVal < (mmMinVal ρ ev fuel (childState ρ e a)).1) :
    mmRootStep ρ ev fuel e s a =
      ⟨some a, (mmMinVal ρ ev fuel (childState ρ e a)).1, s.alpha,
       s.cnt + (mmMinVal ρ ev fuel (childState ρ e a)).2⟩ := by
  simp [mmRootStep, h]

theorem mmRootStep_neg (ρ : Env → Nat) (ev : Env → Rat) (fuel : Nat) (e : Env)
    (s : RootState) (a : Pos)
    (h : ¬ s.bestVal < (mmMinVal ρ ev fuel (childState ρ e a)).1) :
    mmRootStep ρ ev fuel e s a =
      ⟨s.best, s.bestVal, s.alpha,
       s.cnt + (mmMinVal ρ ev fuel (childState ρ e a)).2⟩ := by
  simp [mmRootStep, h]

theorem abRoot_eq (ρ : Env → Nat) (fuel : Nat) (e : Env) :
    ∀ (actions : List Pos) (s1 s2 : RootState),
      s1.best = s2.best → s1.bestVal = s2.bestVal → s1.alpha = s1.bestVal →
      (actions.foldl (abRootStep ρ fuel e) s1).best =
        (actions.foldl (mmRootStep ρ alphaBetaEvaluate fuel e) s2).best := by
  intro actions
  induction actions with
  | nil => intro s1 s2 hb hv ha; exact hb
  | cons a rest ih =>
      intro s1 s2 hb hv ha
      simp only [List.foldl_cons]
      by_cases htp : s1.bestVal = ⊤
      · -- the running best is already +inf: nothing can beat it on either side
        have h1 : ¬ s1.bestVal < (abMinVal ρ fuel (childState ρ e a) s1.alpha ⊤).1 := by
          rw [htp]
          exact not_top_lt
        have h2 : ¬ s2.bestVal < (mmMinVal ρ alphaBetaEvaluate fuel (childState ρ e a)).1 := by
          rw [← hv, htp]
          exact not_top_lt
        rw [abRootStep_neg ρ fuel e s1 a h1, mmRootStep_neg ρ alphaBetaEvaluate fuel e s2 a h2]
        refine ih _ _ hb hv ?_
        simp only [ha]
        exact max_self _
      · have hlt : s1.bestVal < ⊤ := lt_top_iff_ne_top.mpr htp
        obtain ⟨hw1, hw2⟩ := (ab_window ρ fuel (childState ρ e a) s1.bestVal ⊤ hlt).2
        rw [top_inf_eq] at hw1 hw2
        by_cases hup : s1.bestVal < (abMinVal ρ fuel (childState ρ e a) s1.bestVal ⊤).1
        · have hVgt : s1.bestVal <
              (mmMinVal ρ alphaBetaEvaluate fuel (childState ρ e a)).1 := by
            by_contra hle
            push_neg at hle
            rw [sup_eq_left.mpr hle] at hw2
            exact absurd (lt_of_lt_of_le hup hw2) (lt_irrefl _)
          have hWV : (abMinVal ρ fuel (childState ρ e a) s1.bestVal ⊤).1 =
              (mmMinVal ρ alphaBetaEvaluate fuel (childState ρ e a)).1 := by
            refine le_antisymm ?_ ?_
            · rw [sup_eq_right.mpr (le_of_lt hVgt)] at hw2
              exact hw2
            · rw [sup_eq_right.mpr (le_of_lt hup)] at hw1
              exact hw1
          have hupA : s1.bestVal < (abMinVal ρ fuel (childState ρ e a) s1.alpha ⊤).1 := by
            rw [ha]
            exact hup
          have hup2 : s2.bestVal <
              (mmMinVal ρ alphaBetaEvaluate fuel (childState ρ e a)).1 := by
            rw [← hv]
            exact hVgt
          rw [abRootStep_pos ρ fuel e s1 a hupA,
            mmRootStep_pos ρ alphaBetaEvaluate fuel e s2 a hup2]
          refine ih _ _ rfl ?_ ?_
          · show (abMinVal ρ fuel (childState ρ e a) s1.alpha ⊤).1 =
              (mmMinVal ρ alphaBetaEvaluate fuel (childState ρ e a)).1
            rw [ha]
            exact hWV
          · show max s1.alpha (abMinVal ρ fuel (childState ρ e a) s1.alpha ⊤).1 =
              (abMinVal ρ fuel (childState ρ e a) s1.alpha ⊤).1
            refine sup_eq_right.mpr (le_of_lt ?_)
            rw [ha]
            exact hup
        · have hVle : (mmMinVal ρ alphaBetaEvaluate fuel (childState ρ e a)).1 ≤
              s1.bestVal := by
            rw [sup_eq_left.mpr (not_lt.mp hup)] at hw1
            exact hw1
          have hupA : ¬ s1.bestVal < (abMinVal ρ fuel (childState ρ e a) s1.alpha ⊤).1 := by
            rw [ha]
            exact hup
          have hup2 : ¬ s2.bestVal <
              (mmMinVal ρ alphaBetaEvaluate fuel (childState ρ e a)).1 := by
            rw [← hv]
            exact not_lt.mpr hVle
          rw [abRootStep_neg ρ fuel e s1 a hupA,
            mmRootStep_neg ρ alphaBetaEvaluate fuel e s2 a hup2]
          refine ih _ _ hb hv ?_
          show max s1.alpha s1.bestVal = s1.bestVal
          rw [ha]
          exact max_self _

theorem abSearch_eq_mm_abeval (ρ : Env → Nat) (d : Nat) (e : Env) :
    (abSearch ρ d e).1 = (mmSearch ρ alphaBetaEvaluate d e).1 := by
  unfold abSearch mmSearch
  split_ifs with h
  · rfl
  · exact abRoot_eq ρ (d - 1) e (actionsList e) ⟨none, ⊥, ⊥, 0⟩ ⟨none, ⊥, ⊥, 0⟩ rfl rfl rfl

theorem cDen_cast_ne (e : Env) :
    (((if e.width + e.height = 0 then 1 else e.width + e.height : Nat) : Rat)) ≠ 0 := by
  split_ifs with hs
  · norm_num
  · exact_mod_cast hs

theorem closeness_exact (e : Env) :
    max 0 (min 1 (1 - (manhattan e.playerPos e.goal : Rat) /
        ((e.width : Rat) + (e.height : Rat)))) =
      (((if e.width + e.height = 0 then 1
          else e.width + e.height - manhattan e.playerPos e.goal : Nat) : Rat)) /
      (((if e.width + e.height = 0 then 1 else e.width + e.height : Nat) : Rat)) := by
  by_cases hs : e.width + e.height = 0
  · rw [if_pos hs, if_pos hs]
    have hw0 : e.width = 0 := by omega
    have hh0 : e.height = 0 := by omega
    rw [hw0, hh0]
    norm_num
  · rw [if_neg hs, if_neg hs]
    have hX : ((e.width + e.height : Nat) : Rat) = (e.width : Rat) + (e.height : Rat) := by
      push_cast
      ring
    have hXpos : (0 : Rat) < (e.width : Rat) + (e.height : Rat) := by
      rw [← hX]
      exact_mod_cast Nat.pos_of_ne_zero hs
    have hXne : ((e.width : Rat) + (e.height : Rat)) ≠ 0 := ne_of_gt hXpos
    rw [hX]
    have hnn : 0 ≤ (manhattan e.playerPos e.goal : Rat) /
        ((e.width : Rat) + (e.height : Rat)) :=
      div_nonneg (by positivity) (le_of_lt hXpos)
    have hx1 : 1 - (manhattan e.playerPos e.goal : Rat) /
        ((e.width : Rat) + (e.height : Rat)) ≤ 1 := by linarith
    by_cases hd : manhattan e.playerPos e.goal ≤ e.width + e.height
    · have hsub : ((e.width + e.height - manhattan e.playerPos e.goal : Nat) : Rat) =
          ((e.width : Rat) + (e.height : Rat)) - (manhattan e.playerPos e.goal : Rat) := by
        rw [Nat.cast_sub hd, hX]
      rw [hsub]
      have hle : (manhattan e.playerPos e.goal : Rat) /
          ((e.width : Rat) + (e.height : Rat)) ≤ 1 := by
        rw [div_le_one hXpos, ← hX]
        exact_mod_cast hd
      have hx0 : 0 ≤ 1 - (manhattan e.playerPos e.goal : Rat) /
          ((e.width : Rat) + (e.height : Rat)) := by linarith
      rw [min_eq_right hx1, max_eq_right hx0]
      field_simp
    · have hk : e.width + e.height - manhattan e.playerPos e.goal = 0 := by omega
      rw [hk]
      have hgt : ((e.width : Rat) + (e.height : Rat)) <
          (manhattan e.playerPos e.goal : Rat) := by
        rw [← hX]
        exact_mod_cast not_le.mp hd
      have hge : 1 ≤ (manhattan e.playerPos e.goal : Rat) /
          ((e.width : Rat) + (e.height : Rat)) := by
        rw [le_div_iff hXpos]
        linarith
      have hx0 : 1 - (manhattan e.playerPos e.goal : Rat) /
          ((e.width : Rat) + (e.height : Rat)) ≤ 0 := by linarith
      rw [min_eq_right hx1, max_eq_left hx0]
      norm_num

theorem evalExactCore {K C P N : Nat} (hC : (C : Rat) ≠ 0) :
    Rat.divInt (24 * ((K : Int) * (P : Int)) + 5 * ((N : Int) * (C : Int)))
        (400 * (C : Int)) =
      ((K : Rat) / (C : Rat)) * (6/10) * ((P : Rat) / 10) + ((N : Rat) / 8) * (1/10) := by
  rw [Rat.divInt_eq_div]
  push_cast
  field_simp
  ring

theorem evalExactCoreTrap {K C P N : Nat} (hC : (C : Rat) ≠ 0) :
    Rat.divInt (9 * (24 * ((K : Int) * (P : Int)) + 5 * ((N : Int) * (C : Int))))
        (4000 * (C : Int)) =
      (((K : Rat) / (C : Rat)) * (6/10) * ((P : Rat) / 10) + ((N : Rat) / 8) * (1/10)) *
        (9/10) := by
  rw [Rat.divInt_eq_div]
  push_cast
  field_simp
  ring

theorem minimaxEvalExact_eq : minimaxEvalExact = minimaxEvaluate := by
  funext e
  by_cases h1 : e.playerPos = e.goal
  · simp only [minimaxEvalExact, minimaxEvaluate, if_pos h1]
    norm_num [Rat.ofInt_eq_cast]
  by_cases h2 : e.playerPos = e.enemyPos ∨ e.playerPos ∈ e.traps
  · simp only [minimaxEvalExact, minimaxEvaluate, if_neg h1, if_pos h2]
    norm_num [Rat.ofInt_eq_cast]
  have hpf : (if manhattan e.playerPos e.enemyPos ≤ 1 then (3 : Rat)/10
      else if manhattan e.playerPos e.enemyPos = 2 then 6/10
      else if manhattan e.playerPos e.enemyPos = 3 then 8/10 else 1) =
      (((if manhattan e.playerPos e.enemyPos ≤ 1 then (3 : Nat)
        else if manhattan e.playerPos e.enemyPos = 2 then 6
        else if manhattan e.playerPos e.enemyPos = 3 then 8 else 10) : Nat) : Rat) / 10 := by
    split_ifs <;> norm_num
  have hC := cDen_cast_ne e
  simp only [minimaxEvalExact, minimaxEvaluate, if_neg h1, if_neg h2]
  by_cases h3 : trapClose e
  · simp only [if_pos h3]
    rw [closeness_exact e, hpf, evalExactCoreTrap hC]
    norm_num [Rat.divInt_eq_div]
  · simp only [if_neg h3]
    rw [closeness_exact e, hpf, evalExactCore hC]
    norm_num [Rat.divInt_eq_div]

theorem mmFold_cnt_mono (ρ : Env → Nat) (e : Env) (comb : EScore → EScore → EScore)
    (f : Env → EScore × Nat) :
    ∀ (actions : List Pos) (s : EScore × Nat),
      s.2 ≤ (actions.foldl (mmStep ρ e comb f) s).2 := by
  intro actions
  induction actions with
  | nil => intro s; exact le_refl _
  | cons a rest ih =>
      intro s
      simp only [List.foldl_cons]
      refine le_trans ?_ (ih _)
      unfold mmStep
      exact Nat.le_add_right _ _

theorem abFoldMax_stop (ρ : Env → Nat) (e : Env) (beta : EScore)
    (f : Env → EScore → EScore → EScore × Nat) :
    ∀ (actions : List Pos) (s : ABState), s.stop = true →
      actions.foldl (abStepMax ρ e beta f) s = s := by
  intro actions
  induction actions with
  | nil => intro s hs; rfl
  | cons a rest ih =>
      intro s hs
      simp only [List.foldl_cons, abStepMax, hs, if_true]
      exact ih s hs

theorem abFoldMin_stop (ρ : Env → Nat) (e : Env) (alpha : EScore)
    (f : Env → EScore → EScore → EScore × Nat) :
    ∀ (actions : List Pos) (s : ABState), s.stop = true →
      actions.foldl (abStepMin ρ e alpha f) s = s := by
  intro actions
  induction actions with
  | nil => intro s hs; rfl
  | cons a rest ih =>
      intro s hs
      simp only [List.foldl_cons, abStepMin, hs, if_true]
      exact ih s hs

theorem mmStep_cnt (ρ : Env → Nat) (e : Env) (comb : EScore → EScore → EScore)
    (g : Env → EScore × Nat) (s : EScore × Nat) (a : Pos) :
    (mmStep ρ e comb g s a).2 = s.2 + (g (childState ρ e a)).2 := rfl

theorem abFoldMax_cnt_le (ρ : Env → Nat) (e : Env) (beta : EScore)
    (f : Env → EScore → EScore → EScore × Nat) (g : Env → EScore × Nat)
    (hfg : ∀ env alpha beta2, (f env alpha beta2).2 ≤ (g env).2) :
    ∀ (actions : List Pos) (sab : ABState) (smm : EScore × Nat),
      sab.cnt ≤ smm.2 →
      (actions.foldl (abStepMax ρ e beta f) sab).cnt ≤
        (actions.foldl (mmStep ρ e max g) smm).2 := by
  intro actions
  induction actions with
  | nil => intro sab smm h; exact h
  | cons a rest ih =>
      intro sab smm h
      simp only [List.foldl_cons]
      have hmono := mmFold_cnt_mono ρ e max g rest (mmStep ρ e max g smm a)
      rw [mmStep_cnt] at hmono
      by_cases hstop : sab.stop = true
      · have hstep : abStepMax ρ e beta f sab a = sab := by
          simp [abStepMax, hstop]
        rw [hstep, abFoldMax_stop ρ e beta f rest sab hstop]
        exact le_trans h (le_trans (Nat.le_add_right _ _) hmono)
      · by_cases hcut : beta ≤ max sab.v (f (childState ρ e a) sab.bound beta).1
        · have hstep : abStepMax ρ e beta f sab a =
              ⟨max sab.v (f (childState ρ e a) sab.bound beta).1, sab.bound,
               sab.cnt + (f (childState ρ e a) sab.bound beta).2, true⟩ := by
            simp [abStepMax, hstop, hcut]
          rw [hstep, abFoldMax_stop ρ e beta f rest _ rfl]
          exact le_trans (Nat.add_le_add h (hfg _ _ _)) hmono
        · have hstep : abStepMax ρ e beta f sab a =
              ⟨max sab.v (f (childState ρ e a) sab.bound beta).1,
               max sab.bound (max sab.v (f (childState ρ e a) sab.bound beta).1),
               sab.cnt + (f (childState ρ e a) sab.bound beta).2, false⟩ := by
            simp [abStepMax, hstop, hcut]
          rw [hstep]
          refine ih _ _ ?_
          rw [mmStep_cnt]
          exact Nat.add_le_add h (hfg _ _ _)

theorem abFoldMin_cnt_le (ρ : Env → Nat) (e : Env) (alpha : EScore)
    (f : Env → EScore → EScore → EScore × Nat) (g : Env → EScore × Nat)
    (hfg : ∀ env alpha2 beta, (f env alpha2 beta).2 ≤ (g env).2) :
    ∀ (actions : List Pos) (sab : ABState) (smm : EScore × Nat),
      sab.cnt ≤ smm.2 →
      (actions.foldl (abStepMin ρ e alpha f) sab).cnt ≤
        (actions.foldl (mmStep ρ e min g) smm).2 := by
  intro actions
  induction actions with
  | nil => intro sab smm h; exact h
  | cons a rest ih =>
      intro sab smm h
      simp only [List.foldl_cons]
      have hmono := mmFold_cnt_mono ρ e min g rest (mmStep ρ e min g smm a)
      rw [mmStep_cnt] at hmono
      by_cases hstop : sab.stop = true
      · have hstep : abStepMin ρ e alpha f sab a = sab := by
          simp [abStepMin, hstop]
        rw [hstep, abFoldMin_stop ρ e alpha f rest sab hstop]
        exact le_trans h (le_trans (Nat.le_add_right _ _) hmono)
      · by_cases hcut : min sab.v (f (childState ρ e a) alpha sab.bound).1 ≤ alpha
        · have hstep : abStepMin ρ e alpha f sab a =
              ⟨min sab.v (f (childState ρ e a) alpha sab.bound).1, sab.bound,
               sab.cnt + (f (childState ρ e a) alpha sab.bound).2, true⟩ := by
            simp [abStepMin, hstop, hcut]
          rw [hstep, abFoldMin_stop ρ e alpha f rest _ rfl]
          exact le_trans (Nat.add_le_add h (hfg _ _ _)) hmono
        · have hstep : abStepMin ρ e alpha f sab a =
              ⟨min sab.v (f (childState ρ e a) alpha sab.bound).1,
               min sab.bound (min sab.v (f (childState ρ e a) alpha sab.bound).1),
               sab.cnt + (f (childState ρ e a) alpha sab.bound).2, false⟩ := by
            simp [abStepMin, hstop, hcut]
          rw [hstep]
          refine ih _ _ ?_
          rw [mmStep_cnt]
          exact Nat.add_le_add h (hfg _ _ _)

theorem ab_nodes_le_mm_val (ρ : Env → Nat) (ev : Env → Rat) :
    ∀ (fuel : Nat) (e : Env) (alpha beta : EScore),
      (abMaxVal ρ fuel e alpha beta).2 ≤ (mmMaxVal ρ ev fuel e).2 ∧
      (abMinVal ρ fuel e alpha beta).2 ≤ (mmMinVal ρ ev fuel e).2 := by
  intro fuel
  induction fuel with
  | zero => intro e alpha beta; exact ⟨le_refl _, le_refl _⟩
  | succ fuel ih =>
      intro e alpha beta
      constructor
      · unfold abMaxVal mmMaxVal
        split_ifs with ht
        · exact le_refl _
        · exact abFoldMax_cnt_le ρ e beta (abMinVal ρ fuel) (mmMinVal ρ ev fuel)
            (fun env a2 b2 => (ih env a2 b2).2) (actionsList e) _ _ (le_refl 1)
      · unfold abMinVal mmMinVal
        split_ifs with ht
        · exact le_refl _
        · exact abFoldMin_cnt_le ρ e alpha (abMaxVal ρ fuel) (mmMaxVal ρ ev fuel)
            (fun env a2 b2 => (ih env a2 b2).1) (actionsList e) _ _ (le_refl 1)

theorem abRootStep_cnt (ρ : Env → Nat) (fuel : Nat) (e : Env) (s : RootState) (a : Pos) :
    (abRootStep ρ fuel e s a).cnt =
      s.cnt + (abMinVal ρ fuel (childState ρ e a) s.alpha ⊤).2 := by
  simp only [abRootStep]
  split_ifs <;> rfl

theorem mmRootStep_cnt (ρ : Env → Nat) (ev : Env → Rat) (fuel : Nat) (e : Env)
    (s : RootState) (a : Pos) :
    (mmRootStep ρ ev fuel e s a).cnt =
      s.cnt + (mmMinVal ρ ev fuel (childState ρ e a)).2 := by
  simp only [mmRootStep]
  split_ifs <;> rfl

theorem abRootFold_cnt_le (ρ : Env → Nat) (ev : Env → Rat) (fuel : Nat) (e : Env) :
    ∀ (actions : List Pos) (sab smm : RootState), sab.cnt ≤ smm.cnt →
      (actions.foldl (abRootStep ρ fuel e) sab).cnt ≤
        (actions.foldl (mmRootStep ρ ev fuel e) smm).cnt := by
  intro actions
  induction actions with
  | nil => intro sab smm h; exact h
  | cons a rest ih =>
      intro sab smm h
      simp only [List.foldl_cons]
      refine ih _ _ ?_
      rw [abRootStep_cnt, mmRootStep_cnt]
      exact Nat.add_le_add h (ab_nodes_le_mm_val ρ ev fuel _ _ _).2

theorem abSearch_nodes_le (ρ : Env → Nat) (ev : Env → Rat) (d : Nat) (e : Env) :
    (abSearch ρ d e).2 ≤ (mmSearch ρ ev d e).2 := by
  unfold abSearch mmSearch
  split_ifs with h
  · exact le_refl 0
  · exact abRootFold_cnt_le ρ ev (d - 1) e (actionsList e) _ _ (le_refl 0)

set_option maxHeartbeats 2000000 in
/-- C1 counterexample: on the 4x4 board `envC` at depth 1 with the
deterministic spawn oracle, `AlphaBetaSearch.search` commits to root action
(2, 2) while `MinimaxSearch.search` (whose `MinimaxNode.evaluate` is a
different heuristic from `AlphaBetaNode.evaluate`) commits to (2, 3): the
two engines do not return the same root action even with identical
tie-breaking, because they ship different leaf evaluations. -/
theorem alphabeta_vs_minimax_counterexample :
    (abSearch rho0 1 envC).1 = some (2, 2) ∧
    (mmSearch rho0 minimaxEvaluate 1 envC).1 = some (2, 3) ∧
    (abSearch rho0 1 envC).1 ≠ (mmSearch rho0 minimaxEvaluate 1 envC).1 := by
  rw [← minimaxEvalExact_eq]
  refine ⟨by decide, by decide, by decide⟩

/-- C1 (amended): for every state, depth and tie-break oracle,
(i) `AlphaBetaSearch.search` visits at most as many nodes as the exhaustive
`MinimaxSearch.search` run with any leaf evaluation whatsoever, and
(ii) alpha-beta pruning itself is sound — `AlphaBetaSearch.search` returns
exactly the root action of the exhaustive minimax recursion instantiated
with `AlphaBetaNode.evaluate`.  The spec sentence fails only because the
shipped `MinimaxSearch` evaluates leaves with the unrelated
`MinimaxNode.evaluate` heuristic (see the counterexample). -/
theorem alphabeta_vs_minimax :
    (∀ (ρ : Env → Nat) (ev : Env → Rat) (d : Nat) (e : Env),
        (abSearch ρ d e).2 ≤ (mmSearch ρ ev d e).2) ∧
    (∀ (ρ : Env → Nat) (d : Nat) (e : Env),
        (abSearch ρ d e).1 = (mmSearch ρ alphaBetaEvaluate d e).1) :=
  ⟨fun ρ ev d e => abSearch_nodes_le ρ ev d e,
   fun ρ d e => abSearch_eq_mm_abeval ρ d e⟩

/-! ## MCTS best-child selection (C9) and rollout reward (C8) -/

theorem pyFold_spec {α : Type} (key : α → Rat) :
    ∀ (xs : List α) (b : α),
      (let m := xs.foldl (fun b y => if key b < key y then y else b) b
       (m = b ∨ m ∈ xs) ∧ key b ≤ key m ∧ ∀ y ∈ xs, key y ≤ key m) := by
  intro xs
  induction xs with
  | nil =>
      intro b
      exact ⟨Or.inl rfl, le_refl _, by simp⟩
  | cons x xs ih =>
      intro b
      simp only [List.foldl_cons]
      obtain ⟨hmem, hble, hall⟩ := ih (if key b < key x then x else b)
      constructor
      · rcases hmem with hm | hm
        · rw [hm]
          split_ifs with h
          · exact Or.inr (List.mem_cons_self x xs)
          · exact Or.inl rfl
        · exact Or.inr (List.mem_cons_of_mem x hm)
      · constructor
        · refine le_trans ?_ hble
          split_ifs with h
          · exact le_of_lt h
          · exact le_refl _
        · intro y hy
          rcases List.mem_cons.mp hy with hy | hy
          · subst hy
            refine le_trans ?_ hble
            split_ifs with h
            · exact le_refl _
            · exact le_of_not_lt h
          · exact hall y hy

/-- Python `max(xs, key=k)` returns a member of the list whose key is
maximal (the first such member: later elements replace only on a strictly
larger key). -/
theorem pyMaxBy_spec {α : Type} (key : α → Rat) (l : List α) (hl : l ≠ []) :
    ∃ b, pyMaxBy key l = some b ∧ b ∈ l ∧ ∀ y ∈ l, key y ≤ key b := by
  rcases l with _ | ⟨x, xs⟩
  · exact absurd rfl hl
  · obtain ⟨hmem, hble, hall⟩ := pyFold_spec key xs x
    refine ⟨_, rfl, ?_, ?_⟩
    · rcases hmem with hm | hm
      · rw [hm]
        exact List.mem_cons_self x xs
      · exact List.mem_cons_of_mem x hm
    · intro y hy
      rcases List.mem_cons.mp hy with hy | hy
      · subst hy
        exact hble
      · exact hall y hy

/-- The candidate filter of `MCTS.search` never empties a non-empty child
list: when no child clears the visit floor the source falls back to all
children. -/
theorem mcts_candidates_ne (rootVisits : Nat) (children : List ChildStat)
    (hne : children ≠ []) : mctsCandidates rootVisits children ≠ [] := by
  unfold mctsCandidates
  split_ifs with h
  · exact hne
  · intro hc
    rw [hc] at h
    simp at h

/-- C9 counterexample: with 100 root visits and two children both clearing
the minimum-visit floor (`max(1, 100 // 2 // 2) = 25`), the child with the
LOWER visit count (40 versus 60) but the higher win-rate
`wins/(visits+1)` (25/41 > 30/61) is returned: the selection key of
`MCTS.search` line 110 is the win-rate alone, so the highest visit count is
not the primary criterion and win-rate is not a mere tiebreaker. -/
theorem mcts_best_counterexample :
    bestChildAction 100 [⟨60, 30, ((0 : Int), (0 : Int))⟩,
        ⟨40, 25, ((1 : Int), (1 : Int))⟩] = some ((1 : Int), (1 : Int)) ∧
    (40 : Nat) < 60 ∧
    Nat.max 1 (100 / 2 / 2) ≤ 40 := by
  refine ⟨?_, by decide, by decide⟩
  norm_num [bestChildAction, mctsCandidates, pyMaxBy, winScore, List.filter]

/-- C9 (amended): among non-empty root children, the move selection of
`MCTS.search` (before the safety override) returns the action of a
candidate — a child clearing the visit floor
`max(1, root.visits // len(children) // 2)`, with all children as fallback
when none clears it — that maximises the win-rate key
`wins/(visits+1) if visits > 0 else 0`; the visit count itself is never
compared. -/
theorem mcts_best (rootVisits : Nat) (children : List ChildStat) (hne : children ≠ []) :
    ∃ c : ChildStat, c ∈ mctsCandidates rootVisits children ∧
      bestChildAction rootVisits children = some c.action ∧
      ∀ d ∈ mctsCandidates rootVisits children, winScore d ≤ winScore c := by
  obtain ⟨b, hb, hbm, hball⟩ :=
    pyMaxBy_spec winScore (mctsCandidates rootVisits children)
      (mcts_candidates_ne rootVisits children hne)
  refine ⟨b, hbm, ?_, hball⟩
  rcases children with _ | ⟨x, xs⟩
  · exact absurd rfl hne
  · unfold bestChildAction
    rw [hb]
    rfl

/-- Witness for C9 (amended) on a concrete two-child root. -/
theorem mcts_best_witness :
    ([⟨3, 1, ((0 : Int), (0 : Int))⟩, ⟨5, 2, ((0 : Int), (1 : Int))⟩] :
        List ChildStat) ≠ [] ∧
    ∃ c : ChildStat,
      c ∈ mctsCandidates 8 [⟨3, 1, ((0 : Int), (0 : Int))⟩, ⟨5, 2, ((0 : Int), (1 : Int))⟩] ∧
      bestChildAction 8 [⟨3, 1, ((0 : Int), (0 : Int))⟩, ⟨5, 2, ((0 : Int), (1 : Int))⟩]
        = some c.action ∧
      ∀ d ∈ mctsCandidates 8 [⟨3, 1, ((0 : Int), (0 : Int))⟩, ⟨5, 2, ((0 : Int), (1 : Int))⟩],
        winScore d ≤ winScore c :=
  ⟨by decide, mcts_best 8 _ (by decide)⟩

/-- C8 (code bug): `MCTS.rollout_reward` (mcts.py lines 387-446) returns
-1.0 — not the documented 0.0 — when the terminal reason is trap or caught,
contradicting its own docstring ("Loss (trap/caught): 0.0", "Returns:
Normalized reward in [0.0, 1.0]") and the spec.  The goal branch (1.0) and
the non-terminal depth-cap branch (a value strictly between 0 and 1, here
43/60 on `envA`) behave as documented. -/
theorem rollout_reward_loss_negative (e : Env) :
    rolloutReward e (some Reason.trap) = -1 ∧
    rolloutReward e (some Reason.caught) = -1 ∧
    rolloutReward e (some Reason.trap) < 0 ∧
    rolloutReward e (some Reason.goal) = 1 ∧
    (0 < rolloutReward envA none ∧ rolloutReward envA none < 1) := by
  have h : rolloutReward envA none = 43/60 := by
    simp only [rolloutReward]
    norm_num [envA, manhattan]
    simp
  refine ⟨by simp [rolloutReward], by simp [rolloutReward], by simp [rolloutReward],
    by simp [rolloutReward], ?_, ?_⟩ <;> rw [h] <;> norm_num

/-! ## A* search: soundness, optimality and the wall-start counterexample (C7) -/

theorem pget_eq_get (π : List Pos) (i : Nat) (h : i < π.length) :
    pget π i = π.get ⟨i, h⟩ := by
  unfold pget
  exact List.getD_eq_get π _ h

theorem get_mem_tail (π : List Pos) (i : Nat) (h0 : 0 < i) (hi : i < π.length) :
    π.get ⟨i, hi⟩ ∈ π.tail := by
  obtain ⟨j, rfl⟩ : ∃ j, i = j + 1 := ⟨i - 1, by omega⟩
  cases π with
  | nil => simp at hi
  | cons a l =>
      rw [List.get_cons_succ]
      exact l.get_mem j (by simpa using hi)

theorem mem_tail_get (π : List Pos) (p : Pos) (hp : p ∈ π.tail) :
    ∃ j, ∃ hj : j + 1 < π.length, π.get ⟨j + 1, hj⟩ = p := by
  cases π with
  | nil => simp at hp
  | cons a l =>
      obtain ⟨⟨j, hj⟩, hpj⟩ := List.mem_iff_get.mp hp
      refine ⟨j, by simpa using hj, ?_⟩
      rw [List.get_cons_succ]
      exact hpj

theorem isPathTo_iff (e : Env) (start tgt : Pos) (π : List Pos) :
    isPathTo e start tgt π ↔ PathIdx e start tgt π := by
  unfold isPathTo PathIdx
  constructor
  · rintro ⟨h1, h2, h3, h4⟩
    have hlen : 0 < π.length := by
      cases π with
      | nil => simp at h1
      | cons a l => simp
    refine ⟨hlen, ?_, ?_, ?_, ?_⟩
    · cases π with
      | nil => simp at h1
      | cons a l =>
          simp only [List.head?_cons, Option.some.injEq] at h1
          simp [pget, h1]
    · rw [List.getLast?_eq_get? ] at h2
      rw [pget_eq_get π _ (by omega)]
      rw [List.get?_eq_get (by omega)] at h2
      exact Option.some_injective _ h2
    · intro i hi
      rw [List.chain'_iff_get] at h3
      rw [pget_eq_get π i (by omega), pget_eq_get π (i + 1) (by omega)]
      exact h3 i (by omega)
    · intro i h0 hi
      have := h4 _ (get_mem_tail π i h0 hi)
      rw [pget_eq_get π i hi]
      exact this
  · rintro ⟨hlen, h1, h2, h3, h4⟩
    refine ⟨?_, ?_, ?_, ?_⟩
    · cases π with
      | nil => simp at hlen
      | cons a l =>
          simp only [pget, List.getD_cons_zero] at h1
          simp [h1]
    · rw [List.getLast?_eq_get?, List.get?_eq_get (by omega)]
      rw [pget_eq_get π _ (by omega)] at h2
      rw [h2]
    · rw [List.chain'_iff_get]
      intro i hi
      rw [← pget_eq_get π i (by omega), ← pget_eq_get π (i + 1) (by omega)]
      exact h3 i (by omega)
    · intro p hp
      obtain ⟨j, hj, hpj⟩ := mem_tail_get π p hp
      have hpass := h4 (j + 1) (by omega) hj
      rw [pget_eq_get π (j + 1) hj, hpj] at hpass
      exact hpass

theorem manhattan_self (a : Pos) : manhattan a a = 0 := by
  unfold manhattan
  omega

theorem manhattan_triangle (a b c : Pos) :
    manhattan a c ≤ manhattan a b + manhattan b c := by
  unfold manhattan
  omega

theorem chain_manhattan (π : List Pos)
    (h3 : ∀ i, i + 1 < π.length → manhattan (pget π i) (pget π (i + 1)) = 1) :
    ∀ m i, i + m < π.length → manhattan (pget π i) (pget π (i + m)) ≤ m := by
  intro m
  induction m with
  | zero =>
      intro i hi
      simp [manhattan_self]
  | succ m ih =>
      intro i hi
      have h1 := ih i (by omega)
      have h2 := h3 (i + m) (by omega)
      calc manhattan (pget π i) (pget π (i + (m + 1))) ≤
          manhattan (pget π i) (pget π (i + m)) +
            manhattan (pget π (i + m)) (pget π (i + m + 1)) := by
            have : i + (m + 1) = i + m + 1 := by omega
            rw [this]
            exact manhattan_triangle _ _ _
        _ ≤ m + 1 := by omega

theorem pget_append_lt : ∀ (π ρ : List Pos) (i : Nat), i < π.length →
    pget (π ++ ρ) i = pget π i := by
  intro π
  induction π with
  | nil => intro ρ i hi; simp at hi
  | cons a l ih =>
      intro ρ i hi
      cases i with
      | zero => rfl
      | succ j => exact ih ρ j (by simpa using hi)

theorem pget_append_right : ∀ (π ρ : List Pos) (i : Nat),
    pget (π ++ ρ) (π.length + i) = pget ρ i := by
  intro π
  induction π with
  | nil => intro ρ i; simp only [List.nil_append, List.length_nil, Nat.zero_add]
  | cons a l ih =>
      intro ρ i
      have h : (a :: l).length + i = (l.length + i) + 1 := by simp; omega
      rw [h]
      exact ih ρ i

theorem pget_take : ∀ (π : List Pos) (n i : Nat), i < n →
    pget (π.take n) i = pget π i := by
  intro π
  induction π with
  | nil => intro n i hi; simp
  | cons a l ih =>
      intro n i hi
      cases n with
      | zero => omega
      | succ m =>
          cases i with
          | zero => rfl
          | succ j => exact ih m j (by omega)

theorem pget_drop : ∀ (π : List Pos) (n i : Nat),
    pget (π.drop n) i = pget π (n + i) := by
  intro π
  induction π with
  | nil => intro n i; simp [pget]
  | cons a l ih =>
      intro n i
      cases n with
      | zero => simp only [List.drop_zero, Nat.zero_add]
      | succ m =>
          have h : Nat.succ m + i = Nat.succ (m + i) := by omega
          rw [h]
          exact ih m i

theorem pathIdx_singleton (e : Env) (s : Pos) : PathIdx e s s [s] := by
  refine ⟨by simp, rfl, rfl, ?_, ?_⟩
  · intro i hi
    simp at hi
  · intro i h0 hi
    simp at hi
    omega

theorem pathIdx_append (e : Env) (s p n : Pos) (π : List Pos)
    (h : PathIdx e s p π) (hadj : manhattan p n = 1) (hpass : e.passable n) :
    PathIdx e s n (π ++ [n]) := by
  obtain ⟨hlen, h1, h2, h3, h4⟩ := h
  have hLen : (π ++ [n]).length = π.length + 1 := by simp
  refine ⟨by omega, ?_, ?_, ?_, ?_⟩
  · rw [pget_append_lt π [n] 0 hlen]
    exact h1
  · rw [hLen]
    have : π.length + 1 - 1 = π.length + 0 := by omega
    rw [this, pget_append_right]
    rfl
  · intro i hi
    rw [hLen] at hi
    by_cases hc : i + 1 < π.length
    · rw [pget_append_lt π [n] i (by omega), pget_append_lt π [n] (i + 1) hc]
      exact h3 i hc
    · have hieq : i = π.length - 1 := by omega
      have hi1 : i + 1 = π.length + 0 := by omega
      rw [pget_append_lt π [n] i (by omega), hi1, pget_append_right]
      have : pget π i = p := by rw [hieq]; exact h2
      rw [this]
      exact hadj
  · intro i h0 hi
    rw [hLen] at hi
    by_cases hc : i < π.length
    · rw [pget_append_lt π [n] i hc]
      exact h4 i h0 hc
    · have hi1 : i = π.length + 0 := by omega
      rw [hi1, pget_append_right]
      exact hpass

theorem pathIdx_take (e : Env) (s t : Pos) (π : List Pos) (k : Nat)
    (h : PathIdx e s t π) (hk : k < π.length) :
    PathIdx e s (pget π k) (π.take (k + 1)) := by
  obtain ⟨hlen, h1, h2, h3, h4⟩ := h
  have hLen : (π.take (k + 1)).length = k + 1 := by
    rw [List.length_take]
    omega
  refine ⟨by omega, ?_, ?_, ?_, ?_⟩
  · rw [pget_take π (k + 1) 0 (by omega)]
    exact h1
  · rw [hLen]
    have : k + 1 - 1 = k := by omega
    rw [this, pget_take π (k + 1) k (by omega)]
  · intro i hi
    rw [hLen] at hi
    rw [pget_take π (k + 1) i (by omega), pget_take π (k + 1) (i + 1) (by omega)]
    exact h3 i (by omega)
  · intro i h0 hi
    rw [hLen] at hi
    rw [pget_take π (k + 1) i (by omega)]
    exact h4 i h0 (by omega)

theorem pathIdx_splice (e : Env) (s p z : Pos) (τ π : List Pos) (k : Nat)
    (hτ : PathIdx e s p τ) (hπ : PathIdx e s z π) (hk1 : k + 1 < π.length)
    (hp : pget π k = p) :
    PathIdx e s z (τ ++ π.drop (k + 1)) := by
  obtain ⟨hlenτ, ht1, ht2, ht3, ht4⟩ := hτ
  obtain ⟨hlenπ, hp1, hp2, hp3, hp4⟩ := hπ
  have hdl : (π.drop (k + 1)).length = π.length - (k + 1) := by simp
  have hLen : (τ ++ π.drop (k + 1)).length = τ.length + (π.length - (k + 1)) := by
    simp
  refine ⟨by omega, ?_, ?_, ?_, ?_⟩
  · rw [pget_append_lt _ _ 0 hlenτ]
    exact ht1
  · rw [hLen]
    have : τ.length + (π.length - (k + 1)) - 1 =
        τ.length + (π.length - (k + 1) - 1) := by omega
    rw [this, pget_append_right, pget_drop]
    have : k + 1 + (π.length - (k + 1) - 1) = π.length - 1 := by omega
    rw [this]
    exact hp2
  · intro i hi
    rw [hLen] at hi
    by_cases hc : i + 1 < τ.length
    · rw [pget_append_lt _ _ i (by omega), pget_append_lt _ _ (i + 1) hc]
      exact ht3 i hc
    · by_cases hc2 : i + 1 = τ.length
      · have hi0 : i + 1 = τ.length + 0 := by omega
        rw [pget_append_lt _ _ i (by omega), hi0, pget_append_right, pget_drop]
        have h5 : pget τ i = p := by
          have : i = τ.length - 1 := by omega
          rw [this]
          exact ht2
        rw [h5]
        have : k + 1 + 0 = k + 1 := by omega
        rw [this]
        rw [← hp]
        exact hp3 k (by omega)
      · obtain ⟨j, rfl⟩ : ∃ j, i = τ.length + j := ⟨i - τ.length, by omega⟩
        have hi2 : τ.length + j + 1 = τ.length + (j + 1) := by omega
        rw [hi2, pget_append_right, pget_append_right, pget_drop, pget_drop]
        have e1 : k + 1 + (j + 1) = (k + 1 + j) + 1 := by omega
        rw [e1]
        exact hp3 _ (by omega)
  · intro i h0 hi
    rw [hLen] at hi
    by_cases hc : i < τ.length
    · rw [pget_append_lt _ _ i hc]
      exact ht4 i h0 hc
    · obtain ⟨j, rfl⟩ : ∃ j, i = τ.length + j := ⟨i - τ.length, by omega⟩
      rw [pget_append_right, pget_drop]
      exact hp4 _ (by omega) (by omega)

theorem path_length_lower (e : Env) (s t : Pos) (π : List Pos)
    (h : PathIdx e s t π) : manhattan s t + 1 ≤ π.length := by
  obtain ⟨hlen, h1, h2, h3, h4⟩ := h
  have := chain_manhattan π h3 (π.length - 1) 0 (by omega)
  rw [h1] at this
  have h0 : 0 + (π.length - 1) = π.length - 1 := by omega
  rw [h0, h2] at this
  omega

theorem exists_shortest (e : Env) (s t : Pos) (h : ∃ π, PathIdx e s t π) :
    ∃ π, ShortestP e s t π := by
  classical
  obtain ⟨π0, hπ0⟩ := h
  have hne : {n | ∃ π, PathIdx e s t π ∧ π.length = n}.Nonempty :=
    ⟨π0.length, π0, hπ0, rfl⟩
  obtain ⟨π1, hπ1, hlen1⟩ := Nat.sInf_mem hne
  refine ⟨π1, hπ1, ?_⟩
  intro π2 hπ2
  rw [hlen1]
  exact Nat.sInf_le ⟨π2, hπ2, rfl⟩

theorem prefix_min (e : Env) (s z : Pos) (π : List Pos) (k : Nat)
    (hS : ShortestP e s z π) (hk : k < π.length) :
    ∀ τ, PathIdx e s (pget π k) τ → k + 1 ≤ τ.length := by
  intro τ hτ
  by_contra hlt
  push_neg at hlt
  by_cases hc : k + 1 < π.length
  · have hsp := pathIdx_splice e s (pget π k) z τ π k hτ hS.1 hc rfl
    have := hS.2 _ hsp
    have hL : (τ ++ π.drop (k + 1)).length = τ.length + (π.length - (k + 1)) := by simp
    omega
  · have hkL : k = π.length - 1 := by omega
    have hz : pget π k = z := by rw [hkL]; exact hS.1.2.2.1
    rw [hz] at hτ
    have := hS.2 _ hτ
    omega

theorem heapFold_spec : ∀ (xs : List AEntry) (b : AEntry),
    (let m := xs.foldl (fun m y =>
        if y.1 < m.1 ∨ (y.1 = m.1 ∧ y.2.1 < m.2.1) then y else m) b
     (m = b ∨ m ∈ xs) ∧ m.1 ≤ b.1 ∧ ∀ y ∈ xs, m.1 ≤ y.1) := by
  intro xs
  induction xs with
  | nil => intro b; exact ⟨Or.inl rfl, le_refl _, by simp⟩
  | cons x l ih =>
      intro b
      simp only [List.foldl_cons]
      obtain ⟨hmem, hle, hall⟩ :=
        ih (if x.1 < b.1 ∨ (x.1 = b.1 ∧ x.2.1 < b.2.1) then x else b)
      constructor
      · rcases hmem with hm | hm
        · rw [hm]
          split_ifs with h
          · exact Or.inr (List.mem_cons_self x l)
          · exact Or.inl rfl
        · exact Or.inr (List.mem_cons_of_mem x hm)
      · constructor
        · refine le_trans hle ?_
          split_ifs with h
          · rcases h with h | h
            · exact le_of_lt h
            · exact le_of_eq h.1
          · exact le_refl _
        · intro y hy
          rcases List.mem_cons.mp hy with hy | hy
          · subst hy
            refine le_trans hle ?_
            split_ifs with h
            · exact le_refl _
            · push_neg at h
              rcases Nat.lt_or_ge b.1 y.1 with hh | hh
              · exact le_of_lt hh
              · have := h.1
                omega
          · exact hall y hy

theorem heapMin_mem (heap : List AEntry) (en : AEntry) (h : heapMin heap = some en) :
    en ∈ heap := by
  cases heap with
  | nil => simp [heapMin] at h
  | cons x l =>
      simp only [heapMin, Option.some.injEq] at h
      obtain ⟨hmem, _, _⟩ := heapFold_spec l x
      rw [h] at hmem
      rcases hmem with hm | hm
      · rw [hm]
        exact List.mem_cons_self x l
      · exact List.mem_cons_of_mem x hm

theorem heapMin_le_f (heap : List AEntry) (en : AEntry) (h : heapMin heap = some en) :
    ∀ y ∈ heap, en.1 ≤ y.1 := by
  cases heap with
  | nil => simp [heapMin] at h
  | cons x l =>
      simp only [heapMin, Option.some.injEq] at h
      obtain ⟨_, hle, hall⟩ := heapFold_spec l x
      rw [h] at hle hall
      intro y hy
      rcases List.mem_cons.mp hy with hy | hy
      · rw [hy]
        exact hle
      · exact hall y hy

theorem passable_def (e : Env) (n : Pos) :
    (e.in_bounds n && !e.is_blocked n) = e.passable n := rfl

theorem astarExpand_characterize (e : Env) (goal : Pos) (cur : ANode)
    (closed : Finset Pos) (st : List AEntry × List (Pos × Nat) × Nat) (d : Pos) :
    (astarExpand e goal cur closed st d = st ∧
      (¬ (e.passable (cur.position.1 + d.1, cur.position.2 + d.2) = true) ∨
       (cur.position.1 + d.1, cur.position.2 + d.2) ∈ closed ∨
       ∃ og, openLookup st.2.1 (cur.position.1 + d.1, cur.position.2 + d.2) = some og ∧
         og ≤ cur.g + 1)) ∨
    (astarExpand e goal cur closed st d =
        astarPush goal cur st (cur.position.1 + d.1, cur.position.2 + d.2) ∧
      e.passable (cur.position.1 + d.1, cur.position.2 + d.2) = true ∧
      (cur.position.1 + d.1, cur.position.2 + d.2) ∉ closed) := by
  simp only [astarExpand]
  rw [passable_def]
  by_cases hp : e.passable (cur.position.1 + d.1, cur.position.2 + d.2) = true
  · rw [if_pos hp]
    by_cases hc : (cur.position.1 + d.1, cur.position.2 + d.2) ∈ closed
    · rw [if_pos hc]
      exact Or.inl ⟨rfl, Or.inr (Or.inl hc)⟩
    · rw [if_neg hc]
      rcases hl : openLookup st.2.1 (cur.position.1 + d.1, cur.position.2 + d.2) with _ | og
      · exact Or.inr ⟨rfl, hp, hc⟩
      · by_cases hg : cur.g + 1 < og
        · simp only [if_pos hg]
          exact Or.inr ⟨by trivial, hp, hc⟩
        · simp only [if_neg hg]
          exact Or.inl ⟨by trivial, Or.inr (Or.inr ⟨og, rfl, by omega⟩)⟩
  · rw [if_neg hp]
    exact Or.inl ⟨rfl, Or.inl hp⟩

theorem expand_mono (e : Env) (goal : Pos) (cur : ANode) (closed : Finset Pos)
    (st : List AEntry × List (Pos × Nat) × Nat) (d : Pos) (en : AEntry)
    (h : en ∈ st.1) : en ∈ (astarExpand e goal cur closed st d).1 := by
  rcases astarExpand_characterize e goal cur closed st d with ⟨heq, _⟩ | ⟨heq, _, _⟩
  · rw [heq]
    exact h
  · rw [heq]
    exact List.mem_append_left _ h

theorem expand_new (e : Env) (goal : Pos) (cur : ANode) (closed : Finset Pos)
    (st : List AEntry × List (Pos × Nat) × Nat) (d : Pos) (en : AEntry)
    (h : en ∈ (astarExpand e goal cur closed st d).1) :
    en ∈ st.1 ∨
      (e.passable en.2.2.position = true ∧ en.2.2.position ∉ closed ∧
       en.2.2.position = (cur.position.1 + d.1, cur.position.2 + d.2) ∧
       en.2.2.g = cur.g + 1 ∧ en.2.2.path = cur.path ++ [en.2.2.position] ∧
       en.1 = cur.g + 1 + manhattan en.2.2.position goal) := by
  rcases astarExpand_characterize e goal cur closed st d with ⟨heq, _⟩ | ⟨heq, hp, hc⟩
  · rw [heq] at h
    exact Or.inl h
  · rw [heq] at h
    unfold astarPush at h
    rcases List.mem_append.mp h with h | h
    · exact Or.inl h
    · simp only [List.mem_singleton] at h
      subst h
      exact Or.inr ⟨hp, hc, rfl, rfl, rfl, rfl⟩

theorem openLookup_cons (opn : List (Pos × Nat)) (n p : Pos) (g : Nat) :
    openLookup ((n, g) :: opn) p = if p = n then some g else openLookup opn p := by
  by_cases h : p = n
  · rw [if_pos h]
    show (if (n, g).1 = p then some (n, g).2 else openLookup opn p) = some g
    rw [if_pos (by simp [h])]
  · rw [if_neg h]
    show (if (n, g).1 = p then some (n, g).2 else openLookup opn p) = openLookup opn p
    rw [if_neg (by simp; exact fun hc => h hc.symm)]

theorem expand_openInv (e : Env) (goal : Pos) (cur : ANode) (closed : Finset Pos)
    (st : List AEntry × List (Pos × Nat) × Nat) (d : Pos)
    (h : OpenInvH st.1 st.2.1 closed) :
    OpenInvH (astarExpand e goal cur closed st d).1
      (astarExpand e goal cur closed st d).2.1 closed := by
  rcases astarExpand_characterize e goal cur closed st d with ⟨heq, _⟩ | ⟨heq, hp, hc⟩
  · rw [heq]
    exact h
  · rw [heq]
    unfold astarPush
    intro p g hpg
    simp only at hpg
    rw [openLookup_cons] at hpg
    by_cases hpn : p = (cur.position.1 + d.1, cur.position.2 + d.2)
    · rw [if_pos hpn] at hpg
      refine Or.inr ⟨(cur.g + 1 + manhattan (cur.position.1 + d.1, cur.position.2 + d.2) goal,
        st.2.2, ⟨(cur.position.1 + d.1, cur.position.2 + d.2), cur.g + 1,
          cur.path ++ [(cur.position.1 + d.1, cur.position.2 + d.2)]⟩), ?_, ?_, ?_⟩
      · exact List.mem_append_right _ (List.mem_singleton_self _)
      · simp [hpn]
      · exact Option.some.inj hpg
    · rw [if_neg hpn] at hpg
      rcases h p g hpg with hcl | ⟨en, hen, he1, he2⟩
      · exact Or.inl hcl
      · exact Or.inr ⟨en, List.mem_append_left _ hen, he1, he2⟩

theorem expand_covers (e : Env) (goal : Pos) (cur : ANode) (closed : Finset Pos)
    (st : List AEntry × List (Pos × Nat) × Nat) (d : Pos)
    (hop : OpenInvH st.1 st.2.1 closed)
    (hp : e.passable (cur.position.1 + d.1, cur.position.2 + d.2) = true)
    (hc : (cur.position.1 + d.1, cur.position.2 + d.2) ∉ closed) :
    ∃ en ∈ (astarExpand e goal cur closed st d).1,
      en.2.2.position = (cur.position.1 + d.1, cur.position.2 + d.2) ∧
      en.2.2.g ≤ cur.g + 1 := by
  rcases astarExpand_characterize e goal cur closed st d with ⟨heq, hwhy⟩ | ⟨heq, _, _⟩
  · rcases hwhy with hw | hw | ⟨og, hog, hle⟩
    · exact absurd hp hw
    · exact absurd hw hc
    · rcases hop _ _ hog with hcl | ⟨en, hen, he1, he2⟩
      · exact absurd hcl hc
      · rw [heq]
        exact ⟨en, hen, he1, by omega⟩
  · rw [heq]
    unfold astarPush
    refine ⟨(cur.g + 1 + manhattan (cur.position.1 + d.1, cur.position.2 + d.2) goal,
      st.2.2, ⟨(cur.position.1 + d.1, cur.position.2 + d.2), cur.g + 1,
        cur.path ++ [(cur.position.1 + d.1, cur.position.2 + d.2)]⟩), ?_, rfl, le_refl _⟩
    exact List.mem_append_right _ (List.mem_singleton_self _)

theorem foldExpand_mono (e : Env) (goal : Pos) (cur : ANode) (closed : Finset Pos) :
    ∀ (ds : List Pos) (st : List AEntry × List (Pos × Nat) × Nat) (en : AEntry),
      en ∈ st.1 → en ∈ (ds.foldl (astarExpand e goal cur closed) st).1 := by
  intro ds
  induction ds with
  | nil => intro st en h; exact h
  | cons d rest ih =>
      intro st en h
      simp only [List.foldl_cons]
      exact ih _ en (expand_mono e goal cur closed st d en h)

theorem foldExpand_new (e : Env) (goal : Pos) (cur : ANode) (closed : Finset Pos) :
    ∀ (ds : List Pos) (st : List AEntry × List (Pos × Nat) × Nat) (en : AEntry),
      en ∈ (ds.foldl (astarExpand e goal cur closed) st).1 →
      en ∈ st.1 ∨
        (e.passable en.2.2.position = true ∧ en.2.2.position ∉ closed ∧
         (∃ d ∈ ds, en.2.2.position = (cur.position.1 + d.1, cur.position.2 + d.2)) ∧
         en.2.2.g = cur.g + 1 ∧ en.2.2.path = cur.path ++ [en.2.2.position] ∧
         en.1 = cur.g + 1 + manhattan en.2.2.position goal) := by
  intro ds
  induction ds with
  | nil => intro st en h; exact Or.inl h
  | cons d rest ih =>
      intro st en h
      simp only [List.foldl_cons] at h
      rcases ih _ en h with h2 | ⟨hp, hc, ⟨d2, hd2, hpos⟩, hg, hpath, hf⟩
      · rcases expand_new e goal cur closed st d en h2 with h3 | ⟨hp, hc, hpos, hg, hpath, hf⟩
        · exact Or.inl h3
        · exact Or.inr ⟨hp, hc, ⟨d, List.mem_cons_self d rest, hpos⟩, hg, hpath, hf⟩
      · exact Or.inr ⟨hp, hc, ⟨d2, List.mem_cons_of_mem d hd2, hpos⟩, hg, hpath, hf⟩

theorem foldExpand_openInv (e : Env) (goal : Pos) (cur : ANode) (closed : Finset Pos) :
    ∀ (ds : List Pos) (st : List AEntry × List (Pos × Nat) × Nat),
      OpenInvH st.1 st.2.1 closed →
      OpenInvH (ds.foldl (astarExpand e goal cur closed) st).1
        (ds.foldl (astarExpand e goal cur closed) st).2.1 closed := by
  intro ds
  induction ds with
  | nil => intro st h; exact h
  | cons d rest ih =>
      intro st h
      simp only [List.foldl_cons]
      exact ih _ (expand_openInv e goal cur closed st d h)

theorem foldExpand_covers (e : Env) (goal : Pos) (cur : ANode) (closed : Finset Pos) :
    ∀ (ds : List Pos) (st : List AEntry × List (Pos × Nat) × Nat) (d : Pos),
      d ∈ ds →
      OpenInvH st.1 st.2.1 closed →
      e.passable (cur.position.1 + d.1, cur.position.2 + d.2) = true →
      (cur.position.1 + d.1, cur.position.2 + d.2) ∉ closed →
      ∃ en ∈ (ds.foldl (astarExpand e goal cur closed) st).1,
        en.2.2.position = (cur.position.1 + d.1, cur.position.2 + d.2) ∧
        en.2.2.g ≤ cur.g + 1 := by
  intro ds
  induction ds with
  | nil => intro st d hd; simp at hd
  | cons d0 rest ih =>
      intro st d hd hop hp hc
      simp only [List.foldl_cons]
      rcases List.mem_cons.mp hd with hd | hd
      · subst hd
        obtain ⟨en, hen, h1, h2⟩ := expand_covers e goal cur closed st d hop hp hc
        exact ⟨en, foldExpand_mono e goal cur closed rest _ en hen, h1, h2⟩
      · exact ih _ d hd (expand_openInv e goal cur closed st d0 hop) hp hc

theorem dirs_adj (p : Pos) (d : Pos) (hd : d ∈ astarDirs) :
    manhattan p (p.1 + d.1, p.2 + d.2) = 1 := by
  fin_cases hd <;> (unfold manhattan; dsimp only) <;> omega

theorem adj_decompose (p q : Pos) (h : manhattan p q = 1) :
    ∃ d ∈ astarDirs, q = (p.1 + d.1, p.2 + d.2) := by
  rcases p with ⟨px, py⟩
  rcases q with ⟨qx, qy⟩
  unfold manhattan at h
  dsimp only at h
  by_cases h1 : qx = px + 1
  · refine ⟨(1, 0), by simp [astarDirs], ?_⟩
    show (qx, qy) = (px + 1, py + 0)
    rw [Prod.mk.injEq]
    exact ⟨by omega, by omega⟩
  by_cases h2 : qx = px - 1
  · refine ⟨(-1, 0), by simp [astarDirs], ?_⟩
    show (qx, qy) = (px + (-1), py + 0)
    rw [Prod.mk.injEq]
    exact ⟨by omega, by omega⟩
  by_cases h3 : qy = py + 1
  · refine ⟨(0, 1), by simp [astarDirs], ?_⟩
    show (qx, qy) = (px + 0, py + 1)
    rw [Prod.mk.injEq]
    exact ⟨by omega, by omega⟩
  refine ⟨(0, -1), by simp [astarDirs], ?_⟩
  show (qx, qy) = (px + 0, py + (-1))
  rw [Prod.mk.injEq]
  exact ⟨by omega, by omega⟩

/-- A popped entry whose position is not yet closed carries a shortest
path: its f-key is at most the witness entry key `d(w) + h(w)`, which the
Manhattan heuristic being consistent bounds by `d(pos) - 1 + h(pos)`. -/
theorem pop_optimal (e : Env) (start goal : Pos) (heap : List AEntry)
    (opn : List (Pos × Nat)) (closed : Finset Pos) (en : AEntry)
    (hinv : AInv e start goal heap opn closed)
    (hmin : heapMin heap = some en)
    (hnc : en.2.2.position ∉ closed) :
    ShortestP e start en.2.2.position en.2.2.path := by
  obtain ⟨hent, hopen, hfront, hgc⟩ := hinv
  have henh := heapMin_mem heap en hmin
  obtain ⟨hpathc, hlenc, hfc⟩ := hent en henh
  have hreach : ∃ π0, PathIdx e start en.2.2.position π0 := ⟨_, hpathc⟩
  obtain ⟨en2, hen2h, π, i, hS, hi, hpos, hg2, hnc2, hsuf⟩ :=
    hfront en.2.2.position hnc hreach
  refine ⟨hpathc, ?_⟩
  intro π3 hπ3
  have hπle : π.length ≤ π3.length := hS.2 π3 hπ3
  -- it suffices to show the popped path is no longer than the shortest π
  have hkey : en.2.2.path.length ≤ π.length := by
    -- f-comparison through the heap minimum
    have hfle := heapMin_le_f heap en hmin en2 hen2h
    obtain ⟨hpath2, hlen2, hf2⟩ := hent en2 hen2h
    -- telescoping bound on the witness f
    have htel : manhattan en2.2.2.position goal ≤
        (π.length - 1 - i) + manhattan en.2.2.position goal := by
      have hend : pget π (π.length - 1) = en.2.2.position := hS.1.2.2.1
      have hcm := chain_manhattan π hS.1.2.2.2.1 (π.length - 1 - i) i (by omega)
      have hidx : i + (π.length - 1 - i) = π.length - 1 := by omega
      rw [hidx, hend, hpos] at hcm
      calc manhattan en2.2.2.position goal ≤
          manhattan en2.2.2.position en.2.2.position +
            manhattan en.2.2.position goal := manhattan_triangle _ _ _
        _ ≤ (π.length - 1 - i) + manhattan en.2.2.position goal := by
            omega
    have hf2le : en2.1 ≤ (π.length - 1) + manhattan en.2.2.position goal := by
      rcases hf2 with hf2 | ⟨hf2, _⟩
      · rw [hf2, hg2]
        omega
      · rw [hf2]
        omega
    rcases hfc with hfc | ⟨_, hgc0⟩
    · have : en.2.2.g + manhattan en.2.2.position goal ≤
          (π.length - 1) + manhattan en.2.2.position goal := by
        rw [← hfc]
        exact le_trans hfle hf2le
      have hgle : en.2.2.g ≤ π.length - 1 := by omega
      have hL : 0 < π.length := hS.1.1
      omega
    · rw [hlenc, hgc0]
      have := hS.1.1
      omega
  calc en.2.2.path.length ≤ π.length := hkey
    _ ≤ π3.length := hπle

theorem exists_last (P : Nat → Prop) [DecidablePred P] :
    ∀ n : Nat, (∃ j, j ≤ n ∧ P j) →
      ∃ k, k ≤ n ∧ P k ∧ ∀ j, k < j → j ≤ n → ¬ P j := by
  intro n
  induction n with
  | zero =>
      rintro ⟨j, hj, hPj⟩
      have : j = 0 := by omega
      subst this
      exact ⟨0, le_refl 0, hPj, fun j h1 h2 => by omega⟩
  | succ n ih =>
      rintro ⟨j, hj, hPj⟩
      by_cases hPn : P (n + 1)
      · exact ⟨n + 1, le_refl _, hPn, fun j h1 h2 => by omega⟩
      · have hjn : j ≤ n := by
          rcases Nat.eq_or_lt_of_le hj with heq | hlt
          · exact absurd (heq ▸ hPj) hPn
          · omega
        obtain ⟨k, hk, hPk, hmax⟩ := ih ⟨j, hjn, hPj⟩
        refine ⟨k, by omega, hPk, ?_⟩
        intro j2 h1 h2
        rcases Nat.eq_or_lt_of_le h2 with heq | hlt
        · rw [heq]
          exact hPn
        · exact hmax j2 h1 (by omega)

/-- One non-goal iteration of the main loop preserves the invariant.  A
stale pop (position already closed) changes nothing that matters; a genuine
pop has an optimal g-value (`pop_optimal`), so when the popped position
lies on a frontier witness path the witness is repaired through its
successor, which the expansion either pushes with the optimal g or finds
already recorded in the open set. -/
theorem astar_maintain (e : Env) (start goal : Pos) (heap : List AEntry)
    (opn : List (Pos × Nat)) (closed : Finset Pos) (counter : Nat) (en : AEntry)
    (hinv : AInv e start goal heap opn closed)
    (hmin : heapMin heap = some en)
    (hng : en.2.2.position ≠ goal) :
    AInv e start goal
      (astarDirs.foldl (astarExpand e goal en.2.2 (insert en.2.2.position closed))
        (heap.erase en, opn, counter)).1
      (astarDirs.foldl (astarExpand e goal en.2.2 (insert en.2.2.position closed))
        (heap.erase en, opn, counter)).2.1
      (insert en.2.2.position closed) := by
  obtain ⟨hent, hopen, hfront, hgcl⟩ := hinv
  have henh := heapMin_mem heap en hmin
  obtain ⟨hpathc, hlenc, hfc⟩ := hent en henh
  have hopen2 : OpenInvH (heap.erase en, opn, counter).1
      (heap.erase en, opn, counter).2.1 (insert en.2.2.position closed) := by
    intro p g hpg
    rcases hopen p g hpg with hcl | ⟨en2, hen2, h1, h2⟩
    · exact Or.inl (Finset.mem_insert_of_mem hcl)
    · by_cases heq : en2 = en
      · refine Or.inl ?_
        rw [← h1, heq]
        exact Finset.mem_insert_self _ _
      · exact Or.inr ⟨en2, (List.mem_erase_of_ne heq).mpr hen2, h1, h2⟩
  have hEntryRes : ∀ en2 ∈ (astarDirs.foldl
      (astarExpand e goal en.2.2 (insert en.2.2.position closed))
      (heap.erase en, opn, counter)).1, EntryInv e start goal en2 := by
    intro en2 hen2
    rcases foldExpand_new e goal en.2.2 (insert en.2.2.position closed) astarDirs
        (heap.erase en, opn, counter) en2 hen2 with
      hb | ⟨hp, hc, ⟨d, hd, hposd⟩, hg, hpath, hf⟩
    · exact hent en2 (List.mem_of_mem_erase hb)
    · refine ⟨?_, ?_, Or.inl (by rw [hf, hg])⟩
      · rw [hpath]
        refine pathIdx_append e start en.2.2.position en2.2.2.position en.2.2.path
          hpathc ?_ hp
        rw [hposd]
        exact dirs_adj en.2.2.position d hd
      · rw [hpath]
        simp only [List.length_append, List.length_singleton]
        rw [hlenc, hg]
  refine ⟨hEntryRes, ?_, ?_, ?_⟩
  · exact foldExpand_openInv e goal en.2.2 (insert en.2.2.position closed) astarDirs
      (heap.erase en, opn, counter) hopen2
  · -- Frontier invariant
    intro z hz hreach
    have hz0 : z ∉ closed := fun hc => hz (Finset.mem_insert_of_mem hc)
    have hzp0 : z ≠ en.2.2.position := fun hc =>
      hz (hc ▸ Finset.mem_insert_self _ closed)
    obtain ⟨en2, hen2h, π, i, hS, hi, hpos, hg2, hnc2, hsuf⟩ := hfront z hz0 hreach
    by_cases hB : ∃ j, i ≤ j ∧ j < π.length ∧ pget π j = en.2.2.position
    · -- the popped position lies on the witness path: repair via its successor
      have hp0c : en.2.2.position ∉ closed := by
        obtain ⟨j, hij, hjl, hj⟩ := hB
        rcases Nat.eq_or_lt_of_le hij with heq | hlt
        · intro hc
          apply hnc2
          have h5 : en2.2.2.position = en.2.2.position := by
            rw [← hpos, heq]
            exact hj
          rw [h5]
          exact hc
        · intro hc
          exact hsuf j hlt hjl (by rw [hj]; exact hc)
      have hopt := pop_optimal e start goal heap opn closed en
        ⟨hent, hopen, hfront, hgcl⟩ hmin hp0c
      obtain ⟨j0, hij0, hj0l, hj0⟩ := hB
      obtain ⟨k, hkb, ⟨hik, hkl, hkp0⟩, hkmaxP⟩ :=
        exists_last (fun j => i ≤ j ∧ j < π.length ∧ pget π j = en.2.2.position)
          (π.length - 1) ⟨j0, by omega, hij0, hj0l, hj0⟩
      have hkmax : ∀ j, k < j → j < π.length → pget π j ≠ en.2.2.position := by
        intro j h1 h2 hc
        exact hkmaxP j h1 (by omega) ⟨by omega, h2, hc⟩
      have hkl1 : k + 1 < π.length := by
        rcases Nat.eq_or_lt_of_le (Nat.succ_le_of_lt hkl) with heq | hlt
        · exfalso
          apply hzp0
          have hzlast : pget π (π.length - 1) = z := hS.1.2.2.1
          rw [← hzlast, show π.length - 1 = k from by omega]
          exact hkp0
        · exact hlt
      have hs_sfx : pget π (k + 1) ∉ closed := hsuf (k + 1) (by omega) hkl1
      have hs_ne : pget π (k + 1) ≠ en.2.2.position := hkmax (k + 1) (by omega) hkl1
      have hs_cl2 : pget π (k + 1) ∉ insert en.2.2.position closed := by
        intro hc
        rcases Finset.mem_insert.mp hc with hc | hc
        · exact hs_ne hc
        · exact hs_sfx hc
      have hs_pass : e.passable (pget π (k + 1)) = true :=
        hS.1.2.2.2.2 (k + 1) (by omega) hkl1
      have hs_adj : manhattan en.2.2.position (pget π (k + 1)) = 1 := by
        have hch := hS.1.2.2.2.1 k hkl1
        rw [hkp0] at hch
        exact hch
      obtain ⟨d, hd, hsd⟩ := adj_decompose en.2.2.position (pget π (k + 1)) hs_adj
      have htake := pathIdx_take e start z π k hS.1 hkl
      rw [hkp0] at htake
      have htakelen : (π.take (k + 1)).length = k + 1 := by
        rw [List.length_take]
        omega
      have hgk : en.2.2.g = k := by
        have h1 : en.2.2.path.length ≤ k + 1 := by
          have := hopt.2 _ htake
          omega
        have h2 : k + 1 ≤ en.2.2.path.length :=
          prefix_min e start z π k hS hkl _ (hkp0 ▸ hopt.1)
        omega
      have hcov := foldExpand_covers e goal en.2.2 (insert en.2.2.position closed)
        astarDirs (heap.erase en, opn, counter) d hd hopen2
        (by rw [← hsd]; exact hs_pass) (by rw [← hsd]; exact hs_cl2)
      obtain ⟨en3, hen3, hen3pos, hen3g⟩ := hcov
      have hen3inv := hEntryRes en3 hen3
      have hen3s : en3.2.2.position = pget π (k + 1) := by
        rw [hen3pos, ← hsd]
      have hlow : k + 2 ≤ en3.2.2.path.length := by
        apply prefix_min e start z π (k + 1) hS hkl1
        rw [← hen3s]
        exact hen3inv.1
      have hg3 : en3.2.2.g = k + 1 := by
        have hl3 := hen3inv.2.1
        have hup : en3.2.2.g ≤ en.2.2.g + 1 := hen3g
        omega
      refine ⟨en3, hen3, π, k + 1, hS, hkl1, hen3s.symm, hg3, ?_, ?_⟩
      · rw [hen3s]
        exact hs_cl2
      · intro j hj hjl hc
        rcases Finset.mem_insert.mp hc with hc | hc
        · exact hkmax j (by omega) hjl hc
        · exact hsuf j (by omega) hjl hc
    · -- the popped position is not on the remainder of the witness path
      have hne : en2.2.2.position ≠ en.2.2.position := by
        intro hc
        exact hB ⟨i, le_refl i, hi, by rw [hpos]; exact hc⟩
      have hneq : en2 ≠ en := fun hc => hne (by rw [hc])
      refine ⟨en2, foldExpand_mono e goal en.2.2 (insert en.2.2.position closed)
        astarDirs (heap.erase en, opn, counter) en2
        ((List.mem_erase_of_ne hneq).mpr hen2h), π, i, hS, hi, hpos, hg2, ?_, ?_⟩
      · intro hc
        rcases Finset.mem_insert.mp hc with hc | hc
        · exact hne hc
        · exact hnc2 hc
      · intro j hij hjl hc
        rcases Finset.mem_insert.mp hc with hc | hc
        · exact hB ⟨j, by omega, hjl, hc⟩
        · exact hsuf j hij hjl hc
  · intro hc
    rcases Finset.mem_insert.mp hc with hc | hc
    · exact hng hc.symm
    · exact hgcl hc

theorem astarLoop_sound (e : Env) (start goal : Pos) :
    ∀ (fuel : Nat) (heap : List AEntry) (opn : List (Pos × Nat)) (closed : Finset Pos)
      (counter : Nat), AInv e start goal heap opn closed →
      ((∀ π, astarLoop e goal fuel heap opn closed counter = some (some π) →
          PathIdx e start goal π ∧ ∀ π2, PathIdx e start goal π2 → π.length ≤ π2.length) ∧
       (astarLoop e goal fuel heap opn closed counter = some none →
          ∀ π, ¬ PathIdx e start goal π)) := by
  intro fuel
  induction fuel with
  | zero =>
      intro heap opn closed counter hinv
      constructor
      · intro π h
        simp [astarLoop] at h
      · intro h
        simp [astarLoop] at h
  | succ fuel ih =>
      intro heap opn closed counter hinv
      rcases hm : heapMin heap with _ | en
      · have hheap : heap = [] := by
          cases heap with
          | nil => rfl
          | cons x l => simp [heapMin] at hm
        have heq : astarLoop e goal (fuel + 1) heap opn closed counter = some none := by
          simp only [astarLoop, hm]
        constructor
        · intro π h
          rw [heq] at h
          simp at h
        · intro _ π hπ
          obtain ⟨_, _, hfront, hgcl⟩ := hinv
          obtain ⟨en, hen, _⟩ := hfront goal hgcl ⟨π, hπ⟩
          rw [hheap] at hen
          simp at hen
      · by_cases hg : en.2.2.position = goal
        · have heq : astarLoop e goal (fuel + 1) heap opn closed counter =
              some (some en.2.2.path) := by
            simp only [astarLoop, hm, if_pos hg]
          obtain ⟨hent, hopen, hfront, hgcl⟩ := hinv
          have hnc : en.2.2.position ∉ closed := by
            rw [hg]
            exact hgcl
          have hopt := pop_optimal e start goal heap opn closed en
            ⟨hent, hopen, hfront, hgcl⟩ hm hnc
          rw [hg] at hopt
          constructor
          · intro π h
            rw [heq] at h
            have hπ : π = en.2.2.path := by
              simp only [Option.some.injEq] at h
              exact h.symm
            subst hπ
            exact ⟨hopt.1, hopt.2⟩
          · intro h
            rw [heq] at h
            simp at h
        · have heq : astarLoop e goal (fuel + 1) heap opn closed counter =
              astarLoop e goal fuel
                (astarDirs.foldl
                  (astarExpand e goal en.2.2 (insert en.2.2.position closed))
                  (heap.erase en, opn, counter)).1
                (astarDirs.foldl
                  (astarExpand e goal en.2.2 (insert en.2.2.position closed))
                  (heap.erase en, opn, counter)).2.1
                (insert en.2.2.position closed)
                (astarDirs.foldl
                  (astarExpand e goal en.2.2 (insert en.2.2.position closed))
                  (heap.erase en, opn, counter)).2.2 := by
            simp only [astarLoop, hm, if_neg hg]
          have hinv2 := astar_maintain e start goal heap opn closed counter en hinv hm hg
          have hrec := ih _ _ _
            (astarDirs.foldl
              (astarExpand e goal en.2.2 (insert en.2.2.position closed))
              (heap.erase en, opn, counter)).2.2 hinv2
          rw [heq]
          exact hrec

/-- Soundness of `AStar.search` from the initial state: a returned path is
a shortest path from start to goal, and a `None` return means no path
exists. -/
theorem astarSearch_sound (e : Env) (start goal : Pos) (fuel : Nat) :
    (∀ π, astarSearch e fuel start goal = some (some π) →
        PathIdx e start goal π ∧ ∀ π2, PathIdx e start goal π2 → π.length ≤ π2.length) ∧
    (astarSearch e fuel start goal = some none → ∀ π, ¬ PathIdx e start goal π) := by
  have hinv : AInv e start goal [(0, 0, ⟨start, 0, [start]⟩)] [(start, 0)] ∅ := by
    refine ⟨?_, ?_, ?_, ?_⟩
    · intro en hen
      simp only [List.mem_singleton] at hen
      subst hen
      exact ⟨pathIdx_singleton e start, by simp, Or.inr ⟨rfl, rfl⟩⟩
    · intro p g hpg
      rw [openLookup_cons] at hpg
      by_cases hp : p = start
      · rw [if_pos hp] at hpg
        refine Or.inr ⟨(0, 0, ⟨start, 0, [start]⟩), List.mem_singleton_self _, hp.symm, ?_⟩
        simp only [Option.some.injEq] at hpg
        exact hpg
      · rw [if_neg hp] at hpg
        simp [openLookup] at hpg
    · intro z hz hreach
      obtain ⟨π, hS⟩ := exists_shortest e start z hreach
      refine ⟨(0, 0, ⟨start, 0, [start]⟩), List.mem_singleton_self _, π, 0, hS,
        hS.1.1, hS.1.2.1, rfl, by simp, ?_⟩
      intro j h1 h2
      simp
    · simp
  exact astarLoop_sound e start goal fuel _ _ _ 1 hinv

theorem pget_cons_succ (a : Pos) (l : List Pos) (i : Nat) :
    pget (a :: l) (i + 1) = pget l i := rfl

theorem pathIdx_cons (e : Env) (s n t : Pos) (π : List Pos)
    (h : PathIdx e n t π) (hadj : manhattan s n = 1) (hpass : e.passable n) :
    PathIdx e s t (s :: π) := by
  obtain ⟨hlen, h1, h2, h3, h4⟩ := h
  refine ⟨by simp, rfl, ?_, ?_, ?_⟩
  · have hL : (s :: π).length - 1 = (π.length - 1) + 1 := by simp; omega
    rw [hL, pget_cons_succ]
    exact h2
  · intro i hi
    cases i with
    | zero =>
        rw [pget_cons_succ]
        show manhattan (pget (s :: π) 0) (pget π 0) = 1
        rw [show pget (s :: π) 0 = s from rfl, h1]
        exact hadj
    | succ j =>
        rw [pget_cons_succ, pget_cons_succ]
        exact h3 j (by simp at hi; omega)
  · intro i h0 hi
    cases i with
    | zero => omega
    | succ j =>
        rw [pget_cons_succ]
        cases Nat.eq_zero_or_pos j with
        | inl hj =>
            subst hj
            rw [h1]
            exact hpass
        | inr hj => exact h4 j hj (by simp at hi; omega)

theorem lpath_exists (e : Env) (hw : e.walls = ∅) :
    ∀ (m : Nat) (start goal : Pos), manhattan start goal = m →
      e.in_bounds start = true → e.in_bounds goal = true →
      ∃ π, PathIdx e start goal π ∧ π.length = m + 1 := by
  intro m
  induction m with
  | zero =>
      intro start goal hm hbs hbg
      have hsg : start = goal := by
        unfold manhattan at hm
        rcases start with ⟨sx, sy⟩
        rcases goal with ⟨gx, gy⟩
        dsimp only at hm
        rw [Prod.mk.injEq]
        constructor <;> omega
      subst hsg
      exact ⟨[start], pathIdx_singleton e start, rfl⟩
  | succ m ih =>
      intro start goal hm hbs hbg
      unfold Env.in_bounds at hbs hbg
      simp only [Bool.and_eq_true, decide_eq_true_eq] at hbs hbg
      have hpassn : ∀ n : Pos, e.in_bounds n = true → e.passable n = true := by
        intro n hn
        unfold Env.passable Env.is_blocked
        rw [hn, hw]
        simp
      have hstep : ∃ n : Pos, manhattan start n = 1 ∧ manhattan n goal = m ∧
          e.in_bounds n = true := by
        unfold manhattan at hm ⊢
        rcases Nat.lt_or_ge 0 ((start.1 - goal.1).natAbs) with hx | hx
        · rcases Int.lt_or_lt_of_ne (fun hc : start.1 = goal.1 => by omega) with hlt | hlt
          · refine ⟨(start.1 + 1, start.2), by dsimp only; omega, by dsimp only; omega, ?_⟩
            unfold Env.in_bounds
            simp only [Bool.and_eq_true, decide_eq_true_eq]
            omega
          · refine ⟨(start.1 - 1, start.2), by dsimp only; omega, by dsimp only; omega, ?_⟩
            unfold Env.in_bounds
            simp only [Bool.and_eq_true, decide_eq_true_eq]
            omega
        · have hy : 0 < (start.2 - goal.2).natAbs := by omega
          rcases Int.lt_or_lt_of_ne (fun hc : start.2 = goal.2 => by omega) with hlt | hlt
          · refine ⟨(start.1, start.2 + 1), by dsimp only; omega, by dsimp only; omega, ?_⟩
            unfold Env.in_bounds
            simp only [Bool.and_eq_true, decide_eq_true_eq]
            omega
          · refine ⟨(start.1, start.2 - 1), by dsimp only; omega, by dsimp only; omega, ?_⟩
            unfold Env.in_bounds
            simp only [Bool.and_eq_true, decide_eq_true_eq]
            omega
      obtain ⟨n, hadj, hmn, hbn⟩ := hstep
      obtain ⟨π, hπ, hπlen⟩ := ih n goal hmn hbn (by
        unfold Env.in_bounds
        simp only [Bool.and_eq_true, decide_eq_true_eq]
        exact hbg)
      exact ⟨start :: π, pathIdx_cons e start n goal π hπ hadj (hpassn n hbn),
        by simp [hπlen]⟩

/-- C7 (amended): whenever `AStar.search` returns a path, it is a genuine
shortest path in the sense the algorithm enforces — start first, goal last,
consecutive tiles 4-adjacent, every tile after the start in-bounds and
non-wall, of minimal length among all such sequences; when it returns
`None` no such sequence exists; and on an obstacle-free grid with in-bounds
endpoints a returned path has exactly `manhattan start goal + 1` tiles.
The spec clause fails only in that the START tile is never validated: a
wall or out-of-bounds start is happily threaded through (see the
counterexample), so "every tile in-bounds and non-wall" must exempt the
start. -/
theorem astar_search_correct (e : Env) (fuel : Nat) (start goal : Pos) :
    (∀ π, astarSearch e fuel start goal = some (some π) →
        isPathTo e start goal π ∧
        ∀ π2, isPathTo e start goal π2 → π.length ≤ π2.length) ∧
    (astarSearch e fuel start goal = some none →
        ∀ π, ¬ isPathTo e start goal π) ∧
    (e.walls = ∅ → e.in_bounds start = true → e.in_bounds goal = true →
      ∀ π, astarSearch e fuel start goal = some (some π) →
        π.length = manhattan start goal + 1) := by
  obtain ⟨h1, h2⟩ := astarSearch_sound e start goal fuel
  refine ⟨?_, ?_, ?_⟩
  · intro π h
    obtain ⟨ha, hb⟩ := h1 π h
    exact ⟨(isPathTo_iff e start goal π).mpr ha,
      fun π2 hπ2 => hb π2 ((isPathTo_iff e start goal π2).mp hπ2)⟩
  · intro h π hπ
    exact h2 h π ((isPathTo_iff e start goal π).mp hπ)
  · intro hw hbs hbg π h
    obtain ⟨ha, hb⟩ := h1 π h
    obtain ⟨τ, hτ, hτlen⟩ := lpath_exists e hw (manhattan start goal) start goal rfl hbs hbg
    have hge := path_length_lower e start goal π ha
    have hle := hb τ hτ
    omega

/-- Witness for C7 (amended) on the obstacle-free 2×2 board. -/
theorem astar_search_correct_witness :
    astarSearch envF 10 (0, 0) (1, 1) = some (some [(0, 0), (1, 0), (1, 1)]) ∧
    isPathTo envF (0, 0) (1, 1) [(0, 0), (1, 0), (1, 1)] ∧
    ([(0, 0), (1, 0), (1, 1)] : List Pos).length = manhattan (0, 0) (1, 1) + 1 :=
  ⟨by decide,
   ((astar_search_correct envF 10 (0, 0) (1, 1)).1 _ (by decide)).1,
   (astar_search_correct envF 10 (0, 0) (1, 1)).2.2 (by decide) (by decide) (by decide)
     _ (by decide)⟩

/-- C7 counterexample: on `envW` the start tile (0,0) is a wall, yet
`AStar.search` returns the sequence [(0,0), (1,0)] — its first tile is a
wall, and no sequence satisfying the spec wording (ALL tiles in-bounds and
non-wall) exists at all, so "none exactly when unreachable" fails too. -/
theorem astar_wall_start_counterexample :
    astarSearch envW 3 (0, 0) (1, 0) = some (some [(0, 0), (1, 0)]) ∧
    ((0, 0) : Pos) ∈ envW.walls ∧
    ∀ π, ¬ isPathSpec envW (0, 0) (1, 0) π := by
  refine ⟨by decide, by decide, ?_⟩
  intro π hπ
  obtain ⟨h1, _, _, h4⟩ := hπ
  have hmem : ((0, 0) : Pos) ∈ π := by
    cases π with
    | nil => simp at h1
    | cons a l =>
        simp only [List.head?_cons, Option.some.injEq] at h1
        rw [h1]
        exact List.mem_cons_self _ _
  have := h4 _ hmem
  exact absurd this (by decide)
